import Mathlib

/-!
# Verification of the SEBI update-notifier pipeline

A shallow embedding of the two Python scripts of the repository
`1310-On-web/Sebi-update-notifier`:

* `sebi_make_two_csvs.py` — the *snapshot-merge* variant: reads the whole
  master catalog, appends the newly discovered entries in memory, rewrites
  the catalog file, and emits the new rows as a JSON artifact.
* `sebi_update_and_download_missing.py` — the *append-only, download
  capable* variant: appends one CSV row per accepted entry, downloading
  the resolved PDF.

Strings are modelled as `List Char` (`Str`), matching Python's
code-point-indexed `str`.  Pure helper functions are translated directly
from the source; effectful browser/network interactions are modelled by
explicit data (page models, per-candidate outcome oracles).
-/

/-- Python strings are indexed by code points; we model them as `List Char`. -/
abbrev Str := List Char

/-- The characters Python's `str.strip()` removes (ASCII whitespace; the
source titles are scraped text, for which this is the relevant set). -/
def isPySpace (c : Char) : Bool :=
  c = ' ' || c = '\t' || c = '\n' || c = '\r' || c = '\x0b' || c = '\x0c'

/-- Python `s.strip()`: drop whitespace from both ends. -/
def pyStrip (s : Str) : Str :=
  ((s.dropWhile isPySpace).reverse.dropWhile isPySpace).reverse

/-- Python `s.lower()` (ASCII case fold, which is what the scraped text uses). -/
def lowerStr (s : Str) : Str := s.map Char.toLower

/-- Python `s.replace("\r", " ").replace("\n", " ")` (single-char replace). -/
def crlfToSpace (s : Str) : Str :=
  s.map (fun c => if c = '\r' || c = '\n' then ' ' else c)

/-- The characters stripped by the sanitizing regex `[\/\\\:\*\?"<>\|]+`. -/
def isForbidden (c : Char) : Bool :=
  c = '/' || c = '\\' || c = ':' || c = '*' || c = '?' || c = '"' ||
  c = '<' || c = '>' || c = '|'

/-- `re.sub(r'[..]+', rep, s)`: replace every maximal run of characters
satisfying `p` by the single character `rep`.  The `inRun` flag records
whether the previous character was part of a run. -/
def squashRunsAux (p : Char → Bool) (rep : Char) : Bool → Str → Str
  | _, [] => []
  | inRun, c :: cs =>
    if p c then
      if inRun then squashRunsAux p rep true cs
      else rep :: squashRunsAux p rep true cs
    else c :: squashRunsAux p rep false cs

def squashRuns (p : Char → Bool) (rep : Char) (s : Str) : Str :=
  squashRunsAux p rep false s

/-- `s.lower().endswith('.pdf')`. -/
def endsPdfCI (s : Str) : Bool :=
  List.isSuffixOf ".pdf".data (lowerStr s)

/-- The sanitizing pipeline both `safe_filename` variants share:
`s.strip().replace("\r", " ").replace("\n", " ")`, then
`re.sub(r'[\/\\\:\*\?"<>\|]+', '_', s)`, then `re.sub(r'\s+', ' ', s)`. -/
def pySanitize (t : Str) : Str :=
  squashRuns isPySpace ' ' (squashRuns isForbidden '_' (crlfToSpace (pyStrip t)))

/-- `base = s[:150].strip()` applied to the sanitized string. -/
def sfBase (s : Str) : Str := pyStrip ((pySanitize s).take 150)

/-- The final step of `sebi_make_two_csvs.safe_filename`: append `.pdf`
unless the base already ends with it case-insensitively. -/
def pdfExtend (base : Str) : Str :=
  if endsPdfCI base then base else base ++ ".pdf".data

/-- `sebi_make_two_csvs.safe_filename` (lines 25-44): sanitized filename that
ends with `.pdf`, truncated to a 150-character base (the fallback replaces
an empty input before sanitizing). -/
def safe_filename (s : Str) (fallback : Str := "document".data) : Str :=
  pdfExtend (sfBase (if s = [] then fallback else s))

/-- `sebi_update_and_download_missing.safe_filename` (lines 39-45): sanitizes
and truncates to 180 characters, returning the fallback when the sanitized
string is empty; unlike the other variant it does not append `.pdf`. -/
def safe_filename_upd (s : Str) (fallback : Str := "file".data) : Str :=
  if pySanitize s = [] then fallback else (pySanitize s).take 180

/-- `normalize_text` (both scripts): `s.strip() if s else ""`. -/
def normalize_text (s : Str) : Str := pyStrip s

/-- Substring test: `pat ∈ s` in the sense of Python's `in`. -/
def containsStr (s pat : Str) : Bool :=
  decide (∃ l ∈ s.tails, List.isPrefixOf pat l)

/-- `".pdf" in v.lower()`. -/
def containsPdfCI (v : Str) : Bool := containsStr (lowerStr v) ".pdf".data

/-! ## URL helpers -/

/-- Hex digit value for `urllib.parse.unquote` (code-point arithmetic:
`0`-`9` are 48-57, `A`-`F` 65-70, `a`-`f` 97-102). -/
def hexVal (c : Char) : Option Nat :=
  let n := c.toNat
  if 48 ≤ n ∧ n ≤ 57 then some (n - 48)
  else if 97 ≤ n ∧ n ≤ 102 then some (n - 87)
  else if 65 ≤ n ∧ n ≤ 70 then some (n - 55)
  else none

/-- `urllib.parse.unquote`: percent-decoding.  Modelled byte-wise, which
agrees with Python on ASCII percent-escapes (the only ones the site's
viewer URLs use); a `%` not followed by two hex digits is kept verbatim,
as in Python. -/
def pyUnquote : Str → Str
  | [] => []
  | '%' :: c1 :: c2 :: rest =>
    match hexVal c1, hexVal c2 with
    | some h1, some h2 => Char.ofNat (16 * h1 + h2) :: pyUnquote rest
    | _, _ => '%' :: pyUnquote (c1 :: c2 :: rest)
  | c :: rest => c :: pyUnquote rest

/-- Split off the part of `s` after the first occurrence of `pat`
(`none` when `pat` does not occur). -/
def afterFirst (pat : Str) : Str → Option Str
  | [] => if pat = [] then some [] else none
  | c :: cs =>
    if List.isPrefixOf pat (c :: cs) then some ((c :: cs).drop pat.length)
    else afterFirst pat cs

/-- `urlparse(u).path`, modelled for the URLs this program meets: strip a
`scheme://netloc` part when present, then cut the query/fragment. -/
def urlPath (u : Str) : Str :=
  match afterFirst "://".data u with
  | some rest => (rest.dropWhile (fun c => c ≠ '/')).takeWhile
      (fun c => c ≠ '?' && c ≠ '#')
  | none => u.takeWhile (fun c => c ≠ '?' && c ≠ '#')

/-- `pathlib.Path(p).name`: the final path component (trailing slashes are
ignored, as `PurePath` normalizes them away). -/
def pathName (p : Str) : Str :=
  let q := (p.reverse.dropWhile (fun c => c = '/')).reverse
  (q.reverse.takeWhile (fun c => c ≠ '/')).reverse

/-- `urllib.parse.urljoin(base, url)`, modelled for the reference shapes this
program produces: an empty reference keeps the base, an absolute URL (with
`://`) wins, a root-relative reference replaces the base's path, and any
other reference replaces the base's last path segment. -/
def urljoin (base url : Str) : Str :=
  if url = [] then base
  else if containsStr url "://".data then url
  else if List.isPrefixOf "/".data url then
    (match afterFirst "://".data base with
     | some rest =>
       base.take (base.length - rest.length) ++
         rest.takeWhile (fun c => c ≠ '/') ++ url
     | none => url)
  else
    let cut := (base.takeWhile (fun c => c ≠ '?' && c ≠ '#')).reverse.dropWhile
      (fun c => c ≠ '/')
    cut.reverse ++ url

/-! ## Document model

The rendering engine (Playwright) is an external collaborator: a loaded
page exposes `query_selector`, `query_selector_all`, `get_attribute`,
`inner_text`, its own `url`, and its list of sub-frames.  We model a
loaded document by these capabilities as data. -/

/-- A DOM element: its attributes and its visible text. -/
structure Element where
  attrs : List (String × Str)
  innerText : Str
deriving DecidableEq

/-- `el.get_attribute(name)`: `none` models Python's `None`. -/
def Element.getAttr (el : Element) (name : String) : Option Str :=
  (el.attrs.find? (fun p => p.1 = name)).map Prod.snd

/-- A sub-frame: its own address, a `query_selector` capability, and
whether touching it raises (the per-frame `except Exception: continue`). -/
structure Frame where
  url : Str
  sel1 : String → Option Element
  fails : Bool

/-- A loaded page: address, `query_selector`, `query_selector_all`, frames. -/
structure PageDoc where
  url : Str
  sel1 : String → Option Element
  selAll : String → List Element
  frames : List Frame

/-- The targeted selector list shared by both variants of
`find_pdf_url_on_page`. -/
def pdfSelectors : List String :=
  ["iframe[src$='.pdf']", "iframe[src*='.pdf']",
   "embed[src$='.pdf']", "embed[src*='.pdf']",
   "object[data$='.pdf']", "object[data*='.pdf']",
   "a[href$='.pdf']", "a[href*='.pdf']"]

/-- `for attr in attrs: v = el.get_attribute(attr); if v and ".pdf" in
v.lower(): return v` — the first attribute whose value mentions `.pdf`. -/
def attrHit (el : Element) : List String → Option Str
  | [] => none
  | a :: rest =>
    match el.getAttr a with
    | some v => if v ≠ [] && containsPdfCI v then some v else attrHit el rest
    | none => attrHit el rest

/-- Tier 1 of `find_pdf_url_on_page`: walk the targeted selectors; when a
selector matches an element, return its first `.pdf`-bearing attribute
among `src`, `href`, `data`; an element with no such attribute does not
stop the walk. -/
def tierTargeted (pg : PageDoc) : List String → Option Str
  | [] => none
  | sel :: rest =>
    match pg.sel1 sel with
    | none => tierTargeted pg rest
    | some el =>
      match attrHit el ["src", "href", "data"] with
      | some v => some (urljoin pg.url v)
      | none => tierTargeted pg rest

/-- Tier 2: scan every element (`query_selector_all("*")`) for a
`.pdf`-bearing `src`/`href`/`data`/`data-src` attribute. -/
def tierAllElements (pg : PageDoc) : List Element → Option Str
  | [] => none
  | el :: rest =>
    match attrHit el ["src", "href", "data", "data-src"] with
    | some v => some (urljoin pg.url v)
    | none => tierAllElements pg rest

/-- The capture of `re.search(r"[?&]file=([^&]+)", src)`, percent-decoded:
the first `?file=`/`&file=` whose value (up to the next `&`) is nonempty. -/
def fileParam : Str → Option Str
  | [] => none
  | c :: cs =>
    if (c = '?' || c = '&') && List.isPrefixOf "file=".data cs then
      let cap := (cs.drop 5).takeWhile (fun d => d ≠ '&')
      if cap = [] then fileParam cs else some cap
    else fileParam cs

/-- The capture of `re.search(r"src=([^&]+)", src)`: text after the first
literal `src=` up to the next `&` (nonempty, else the search continues). -/
def srcParam : Str → Option Str
  | [] => none
  | c :: cs =>
    if c = 's' && List.isPrefixOf "rc=".data cs then
      let cap := (cs.drop 3).takeWhile (fun d => d ≠ '&')
      if cap = [] then srcParam cs else some cap
    else srcParam cs

/-- Tier 3 as in `sebi_make_two_csvs.find_pdf_url_on_page` (lines 84-91):
iframes whose `src` carries a `file=` viewer parameter. -/
def tierIframeParamsCsv (pg : PageDoc) : List Element → Option Str
  | [] => none
  | ifr :: rest =>
    let src := (ifr.getAttr "src").getD []
    let viaFile : Option Str :=
      if containsStr src "file=".data && containsStr src ".pdf".data then
        match fileParam src with
        | some cap =>
          let cand := pyUnquote cap
          if containsStr cand ".pdf".data then some (urljoin pg.url cand)
          else none
        | none => none
      else none
    match viaFile with
    | some u => some u
    | none => tierIframeParamsCsv pg rest

/-- Tier 3 as in `sebi_update_and_download_missing.find_pdf_url_on_page`
(lines 157-171): the `file=` parameter, then a `src=` parameter of
`pdfjs`/`viewer` iframes. -/
def tierIframeParamsUpd (pg : PageDoc) : List Element → Option Str
  | [] => none
  | ifr :: rest =>
    let src := (ifr.getAttr "src").getD []
    let viaFile : Option Str :=
      if containsStr src "file=".data && containsStr src ".pdf".data then
        match fileParam src with
        | some cap =>
          let cand := pyUnquote cap
          if containsStr cand ".pdf".data then some (urljoin pg.url cand)
          else none
        | none => none
      else none
    match viaFile with
    | some u => some u
    | none =>
      let viaViewer : Option Str :=
        if containsStr src "pdfjs".data || containsStr src "viewer".data then
          match srcParam src with
          | some cap =>
            let cand := pyUnquote cap
            if containsStr cand ".pdf".data then some (urljoin pg.url cand)
            else none
          | none => none
        else none
      match viaViewer with
      | some u => some u
      | none => tierIframeParamsUpd pg rest

/-- `find_pdf_url_on_page` of `sebi_make_two_csvs.py` (lines 55-92). -/
def find_pdf_url_on_page (pg : PageDoc) : Option Str :=
  match tierTargeted pg pdfSelectors with
  | some u => some u
  | none =>
    match tierAllElements pg (pg.selAll "*") with
    | some u => some u
    | none => tierIframeParamsCsv pg (pg.selAll "iframe")

/-- `find_pdf_url_on_page` of `sebi_update_and_download_missing.py`
(lines 126-172). -/
def find_pdf_url_on_page_upd (pg : PageDoc) : Option Str :=
  match tierTargeted pg pdfSelectors with
  | some u => some u
  | none =>
    match tierAllElements pg (pg.selAll "*") with
    | some u => some u
    | none => tierIframeParamsUpd pg (pg.selAll "iframe")

/-- The anchor heuristic inside `main` of the download-capable variant
(lines 256-262): the first anchor whose href ends in `.pdf`, or contains
`.pdf` while its text mentions "view" or "pdf". -/
def anchorHeuristic (pg : PageDoc) : List Element → Option Str
  | [] => none
  | a :: rest =>
    let href := (a.getAttr "href").getD []
    let txt := lowerStr a.innerText
    if href ≠ [] &&
        (List.isSuffixOf ".pdf".data (lowerStr href) ||
          (containsStr (lowerStr href) ".pdf".data &&
            (containsStr txt "view".data || containsStr txt "pdf".data))) then
      some (urljoin pg.url href)
    else anchorHeuristic pg rest

/-- The selector walk inside one frame (lines 273-282): four selectors,
first `.pdf`-bearing `src`/`href`/`data` attribute, joined on the frame's
own address. -/
def frameSelScan (fr : Frame) : List String → Option Str
  | [] => none
  | sel :: rest =>
    match fr.sel1 sel with
    | none => frameSelScan fr rest
    | some el =>
      match attrHit el ["src", "href", "data"] with
      | some v => some (urljoin fr.url v)
      | none => frameSelScan fr rest

/-- The frame-traversal tier of `main` (lines 265-286): accept a frame whose
own address ends in `.pdf`, else run the selector walk inside it; a frame
that raises is skipped. -/
def frameTier : List Frame → Option Str
  | [] => none
  | fr :: rest =>
    if fr.fails then frameTier rest
    else if fr.url ≠ [] && List.isSuffixOf ".pdf".data (lowerStr fr.url) then
      some fr.url
    else
      match frameSelScan fr
          ["iframe[src$='.pdf']", "embed[src$='.pdf']",
           "object[data$='.pdf']", "a[href$='.pdf']"] with
      | some u => some u
      | none => frameTier rest

/-- The full resolution chain of the download-capable `main` (lines
253-286): `find_pdf_url_on_page`, then the anchor heuristic, then the
frame-traversal tier. -/
def resolveMainUpd (pg : PageDoc) : Option Str :=
  match find_pdf_url_on_page_upd pg with
  | some u => some u
  | none =>
    match anchorHeuristic pg (pg.selAll "a") with
    | some u => some u
    | none => frameTier pg.frames

/-- `choose_name_for_pdf` (lines 47-52): name a downloaded PDF after the
URL's file name when it has an extension, else after the entry title. -/
def choose_name_for_pdf (pdf_url entry_title : Str) : Str :=
  let name := pathName (pyUnquote (urlPath pdf_url))
  if name ≠ [] && containsStr name ".".data then
    safe_filename_upd name (safe_filename_upd entry_title "document".data)
  else
    safe_filename_upd entry_title "document".data ++ ".pdf".data

/-! ## Listing extraction

A listing page is modelled by the capabilities the extractors use: the
optional first `table` (with its `tbody tr` and `tr` row lists), and the
anchors the fallback selector group matches. -/

/-- A listing candidate `{date, title, link}`. -/
structure Candidate where
  date : Str
  title : Str
  link : Str
deriving DecidableEq

/-- A table cell: its `inner_text`. -/
structure TCell where
  text : Str
deriving DecidableEq

/-- An anchor inside a table row: its text and optional `href`. -/
structure TAnchor where
  text : Str
  href : Option Str
deriving DecidableEq

/-- A table row: its `td` cells and the first anchor it contains. -/
structure TRow where
  tds : List TCell
  anchor : Option TAnchor
deriving DecidableEq

/-- The listing table: rows matched by `tbody tr` and by `tr`. -/
structure TableEl where
  tbodyRows : List TRow
  allRows : List TRow
deriving DecidableEq

/-- An anchor matched by the fallback selector group, with the data the
date-recovery `evaluate` calls read: the previous sibling's text, the
parent's previous element sibling's text, and whether evaluation raises. -/
structure FAnchor where
  text : Str
  href : Option Str
  prevSib : Str
  parentPrev : Str
  evalFails : Bool
deriving DecidableEq

/-- A listing page as the extractors see it. -/
structure ListingPage where
  table : Option TableEl
  anchors : List FAnchor

/-- The listing URL both scripts resolve hrefs against. -/
def BASE_URL : Str :=
  "https://www.sebi.gov.in/sebiweb/home/HomeAction.do?doListing=yes&sid=1&ssid=7&smid=0".data

/-- One table row's candidate fields, shared verbatim by both structured
tiers: first cell's text as date; the row anchor's text/href as
title/link when present, else the second cell's text as title. -/
def rowFieldsOf (r : TRow) : Str × Str × Str :=
  let date := match r.tds.head? with
    | some td => normalize_text td.text
    | none => []
  match r.anchor with
  | some a =>
    (date, normalize_text a.text, urljoin BASE_URL (a.href.getD []))
  | none =>
    match r.tds.get? 1 with
    | some td => (date, normalize_text td.text, [])
    | none => (date, [], [])

/-- The structured tier of `extract_entries_from_listing`
(`sebi_make_two_csvs.py` lines 99-116): rows with no `td` are skipped and
a row is kept only when its title is nonempty. -/
def structuredRowsCsv (trs : List TRow) : List Candidate :=
  trs.filterMap fun r =>
    if r.tds = [] then none
    else
      let f := rowFieldsOf r
      if f.2.1 ≠ [] then some ⟨f.1, f.2.1, f.2.2⟩ else none

/-- The structured tier of `extract_entries_from_table`
(`sebi_update_and_download_missing.py` lines 82-98): a row is kept when
its title **or its date** is nonempty. -/
def structuredRowsUpd (trs : List TRow) : List Candidate :=
  trs.filterMap fun r =>
    if r.tds = [] then none
    else
      let f := rowFieldsOf r
      if f.2.1 ≠ [] || f.1 ≠ [] then some ⟨f.1, f.2.1, f.2.2⟩ else none

/-- `tbody tr` rows, or all `tr` rows when the former list is empty (the
Python `or` on lists). -/
def tableRows (t : TableEl) : List TRow :=
  if t.tbodyRows ≠ [] then t.tbodyRows else t.allRows

/-- The fallback date recovery (both scripts): the anchor's previous
sibling's text, else the parent's previous element sibling's text; an
evaluation error yields the empty date. -/
def fallbackDate (a : FAnchor) : Str :=
  if a.evalFails then []
  else
    let d := if a.prevSib ≠ [] then normalize_text a.prevSib else []
    if d = [] then normalize_text a.parentPrev else d

/-- The fallback anchor tier shared by both scripts (dedup on the
`(title, link)` pair, anchors with empty titles skipped). -/
def fallbackFrom (seen : List (Str × Str)) : List FAnchor → List Candidate
  | [] => []
  | a :: rest =>
    let title := normalize_text a.text
    let link := urljoin BASE_URL (a.href.getD [])
    if title ≠ [] && ¬ (title, link) ∈ seen then
      ⟨fallbackDate a, title, link⟩ :: fallbackFrom ((title, link) :: seen) rest
    else fallbackFrom seen rest

/-- `fallback_extract_entries` (`sebi_update_and_download_missing.py`
lines 101-122); identical to the `else` branch of
`extract_entries_from_listing` in the other script. -/
def fallback_extract_entries (pg : ListingPage) : List Candidate :=
  fallbackFrom [] pg.anchors

/-- `extract_entries_from_listing` (`sebi_make_two_csvs.py` lines 94-138):
the structured tier when a `table` element exists — whatever it yields —
and the anchor fallback only when there is no table at all. -/
def extract_entries_from_listing (pg : ListingPage) : List Candidate :=
  match pg.table with
  | some t => structuredRowsCsv (tableRows t)
  | none => fallback_extract_entries pg

/-- `extract_entries_from_table` (`sebi_update_and_download_missing.py`
lines 76-99): empty when there is no table. -/
def extract_entries_from_table (pg : ListingPage) : List Candidate :=
  match pg.table with
  | some t => structuredRowsUpd (tableRows t)
  | none => []

/-- The listing step of the download-capable `main` (lines 203-205):
`entries = extract_entries_from_table(page)` with the anchor fallback when
that is empty. -/
def listingEntriesUpd (pg : ListingPage) : List Candidate :=
  let entries := extract_entries_from_table pg
  if entries = [] then fallback_extract_entries pg else entries

/-! ## The append-only run (`sebi_update_and_download_missing.main`)

Per candidate the external world contributes: the loaded detail page
(`none` models a timeout/navigation error, which the code absorbs leaving
`pdf_url = None`), the success of the byte-fetch for a given URL, and the
success of the CSV `writerow`+`flush`. -/

/-- A row of `sebi_circulars_last10_with_pdfs.csv`. -/
structure Row6 where
  date : Str
  title : Str
  link : Str
  pdf_link : Str
  pdf_filename : Str
  pdf_downloaded : Str
deriving DecidableEq

/-- The external outcome for one candidate. -/
structure CandWorld where
  detail : Option PageDoc
  download : Str → Bool
  appendOk : Bool

/-- The dedup key `title.strip().lower()`. -/
def titleKey (s : Str) : Str := lowerStr (pyStrip s)

/-- `title_raw = e.get("title", "") or f"entry_{idx}"`. -/
def titleRawOf (idx : Nat) (e : Candidate) : Str :=
  if e.title = [] then "entry_".data ++ (Nat.repr idx).data else e.title

/-- The URL the download-capable `main` ends up with for one candidate:
the chain's result re-joined on the page address (line 289); `none` when
the page load failed (absorbed, lines 307-310) or no tier matched. -/
def resolvedUrlUpd (w : CandWorld) : Option Str :=
  match w.detail with
  | none => none
  | some pg =>
    match resolveMainUpd pg with
    | none => none
    | some u0 => some (urljoin pg.url u0)

/-- The destination path of the download (lines 291-294): `pdfs/` joined
with `choose_name_for_pdf`, with the caller's `.pdf` suffix fix-up.  (The
fix-up tests `str(dest_path).lower().endswith(".pdf")`; since the
sanitized name is nonempty and `pdfs/` contains no `.`, that test agrees
with testing the name itself.) -/
def destPath (u title_raw : Str) : Str :=
  let dest0 := "pdfs/".data ++ choose_name_for_pdf u title_raw
  if endsPdfCI dest0 then dest0 else dest0 ++ ".pdf".data

/-- The row appended for one processed candidate (lines 248-321): on
download success the destination path is recorded with
`pdf_downloaded = "yes"`; a resolution miss, an absorbed page error, or a
failed download leaves `pdf_filename` empty and `pdf_downloaded = "no"`. -/
def buildRowUpd (w : CandWorld) (idx : Nat) (e : Candidate) : Row6 :=
  let title_raw := titleRawOf idx e
  match resolvedUrlUpd w with
  | none =>
    { date := e.date, title := title_raw, link := e.link,
      pdf_link := [], pdf_filename := [], pdf_downloaded := "no".data }
  | some u =>
    if w.download u then
      { date := e.date, title := title_raw, link := e.link,
        pdf_link := u, pdf_filename := destPath u title_raw,
        pdf_downloaded := "yes".data }
    else
      { date := e.date, title := title_raw, link := e.link,
        pdf_link := u, pdf_filename := [], pdf_downloaded := "no".data }

/-- The mutable state of the append-only loop: the in-run title set, the
rows appended so far, and the `added` counter. -/
structure UpdState where
  titles : List Str
  rows : List Row6
  added : Nat
deriving DecidableEq

/-- One iteration of the candidate loop (lines 232-328): skip when the
title key is known; otherwise build the row and — only if the
`writerow`/`flush` succeeds — append it, absorb the key, and bump the
counter (an append failure leaves the state unchanged, lines 313-328). -/
def updStep (w : CandWorld) (idx : Nat) (e : Candidate) (st : UpdState) : UpdState :=
  let key := titleKey (titleRawOf idx e)
  if key ∈ st.titles then st
  else
    let row := buildRowUpd w idx e
    if w.appendOk then
      { titles := key :: st.titles, rows := st.rows ++ [row],
        added := st.added + 1 }
    else st

/-- The whole candidate loop, `enumerate(entries, start=1)`. -/
def updRun : List (Candidate × CandWorld) → Nat → UpdState → UpdState
  | [], _, st => st
  | (e, w) :: rest, idx, st => updRun rest (idx + 1) (updStep w idx e st)

/-! ## The snapshot-merge run (`sebi_make_two_csvs.main`) -/

/-- A row of `sebi_master.csv`. -/
structure Row9 where
  id : Str
  date : Str
  title : Str
  link : Str
  pdf_link : Str
  pdf_filename : Str
  pdf_downloaded : Str
  created_at : Str
  source_commit : Str
deriving DecidableEq

/-- `make_id` (lines 47-49) returns `sha1(f"{date}|{title}|{link}")` in hex.
The digest itself is computed by `hashlib` (an external collaborator); we
model it as a deterministic tag over the same joined input, since no claim
depends on the digest's value, only on its determinism per candidate. -/
def make_id (date title link : Str) : Str :=
  "sha1:".data ++ date ++ "|".data ++ title ++ "|".data ++ link

/-- The external outcome for one candidate of the snapshot-merge run: the
loaded detail page (`none` models the absorbed `goto` error of lines
249-251) and the `datetime.utcnow()` timestamp string. -/
structure SnapWorld where
  detail : Option PageDoc
  createdAt : Str

/-- The row built for one new candidate (lines 242-271): the PDF is only
resolved, never downloaded, so `pdf_downloaded` is always `"no"`. -/
def buildRowSnap (w : SnapWorld) (e : Candidate) : Row9 :=
  let pdf_url : Option Str :=
    match w.detail with
    | none => none
    | some pg => find_pdf_url_on_page pg
  { id := make_id e.date e.title e.link,
    date := e.date, title := e.title, link := e.link,
    pdf_link := pdf_url.getD [],
    pdf_filename := safe_filename e.title,
    pdf_downloaded := "no".data,
    created_at := w.createdAt,
    source_commit := [] }

/-- The in-memory state of the snapshot-merge loop. -/
structure SnapState where
  titles : List Str
  newMaster : List Row9
  newEntries : List Row9
deriving DecidableEq

/-- One iteration of the candidate loop (lines 234-274). -/
def snapStep (w : SnapWorld) (e : Candidate) (st : SnapState) : SnapState :=
  let key := titleKey e.title
  if key ∈ st.titles then st
  else
    let row := buildRowSnap w e
    { titles := key :: st.titles,
      newMaster := st.newMaster ++ [row],
      newEntries := st.newEntries ++ [row] }

/-- The whole snapshot-merge candidate loop. -/
def snapRun : List (Candidate × SnapWorld) → SnapState → SnapState
  | [], st => st
  | (e, w) :: rest, st => snapRun rest (snapStep w e st)

/-- `existing_titles` built from the loaded master (lines 224-228): the
nonempty normalized titles. -/
def existingTitles (rows : List Row9) : List Str :=
  rows.filterMap fun r =>
    let t := titleKey r.title
    if t ≠ [] then some t else none

/-! ## The catalog file: `write_csv` and `load_master_csv`

`write_csv` uses Python's `csv.DictWriter` with `delimiter='|'`,
`quoting=QUOTE_MINIMAL`, `escapechar='\\'` (and the default quote char
`"` with doubling, line terminator `"\r\n"`), then rewrites the file
replacing every `\r\n` byte pair by `\n`.  `load_master_csv` uses
`csv.DictReader` with `delimiter='|'` and **no** escape character.  Both
dialect engines (the `csv` module) are modelled here character by
character, as pinned down against CPython 3.11. -/

/-- The header of `sebi_master.csv`. -/
def masterHeader : List Str :=
  [ "id".data, "date".data, "title".data, "link".data, "pdf_link".data,
    "pdf_filename".data, "pdf_downloaded".data, "created_at".data,
    "source_commit".data ]

/-- One field as `csv.writer` emits it under the `write_csv` dialect: the
quote char is doubled (marking the field quoted), the escape char `\` is
escaped by itself (without quoting), and a delimiter or line-terminator
character marks the field quoted. -/
def encEsc (c : Char) : Str :=
  if c = '"' then ['"', '"']
  else if c = '\\' then ['\\', '\\']
  else [c]

def quoteNeeded (c : Char) : Bool :=
  c = '|' || c = '"' || c = '\r' || c = '\n'

def encodeField (s : Str) : Str :=
  let body := s.flatMap encEsc
  if s.any quoteNeeded then '"' :: body ++ ['"'] else body

/-- One record: fields joined by the `|` delimiter. -/
def encodeRecord : List Str → Str
  | [] => []
  | [f] => encodeField f
  | f :: rest => encodeField f ++ '|' :: encodeRecord rest

/-- The per-row rewrite `write_csv` applies before emitting (lines
167-172): every field verbatim (`None` becomes `""`, which our total
`Str` fields already are), except `pdf_filename`, which is passed through
`safe_filename` again with fallback `'document.pdf'`. -/
def writeTransform (r : Row9) : Row9 :=
  { r with pdf_filename := safe_filename r.pdf_filename "document.pdf".data }

/-- A row's nine field values in header order. -/
def rowValues (r : Row9) : List Str :=
  [ r.id, r.date, r.title, r.link, r.pdf_link, r.pdf_filename,
    r.pdf_downloaded, r.created_at, r.source_commit ]

/-- The field values `write_csv` emits for a row. -/
def writeRowValues (r : Row9) : List Str :=
  rowValues (writeTransform r)

/-- The post-processing step of `write_csv` (lines 174-183):
`data.replace(b'\r\n', b'\n')`, leftmost non-overlapping. -/
def lfNormalize : Str → Str
  | [] => []
  | [c] => [c]
  | c :: d :: cs =>
    if c = '\r' && d = '\n' then '\n' :: lfNormalize cs
    else c :: lfNormalize (d :: cs)

/-- The full text of `sebi_master.csv` as `write_csv` leaves it: header and
rows each terminated by `\r\n`, then the LF normalization pass. -/
def write_csv_content (rows : List Row9) : Str :=
  lfNormalize <|
    (masterHeader :: rows.map writeRowValues).flatMap
      (fun fs => encodeRecord fs ++ ['\r', '\n'])

/-- Parser state of the `csv.reader` character machine. -/
inductive CsvMode where
  | start   -- at the beginning of a field (an opening quote is recognized)
  | field   -- inside an unquoted field
  | quoted  -- inside a quoted field
  | postq   -- just after a quote inside a quoted field
deriving DecidableEq

/-- The `csv.reader` machine under `load_master_csv`'s dialect
(`delimiter='|'`, quote `"` with doubling, no escape character, non-strict).
`fld` and `rec` accumulate the current field and record.  A `\r` outside
quotes ends the record just like `\n`; the empty record this produces for
a `\r\n` pair is invisible to `DictReader`, which skips blank records. -/
def csvAux : CsvMode → Str → List Str → Str → List (List Str)
  | .start, _, rec, [] => if rec = [] then [] else [rec ++ [[]]]
  | .start, fld, rec, c :: cs =>
    if c = '"' then csvAux .quoted fld rec cs
    else if c = '|' then csvAux .start [] (rec ++ [[]]) cs
    else if c = '\n' || c = '\r' then
      (if rec = [] then ([] : List Str) else rec ++ [[]]) :: csvAux .start [] [] cs
    else csvAux .field [c] rec cs
  | .field, fld, rec, [] => [rec ++ [fld]]
  | .field, fld, rec, c :: cs =>
    if c = '|' then csvAux .start [] (rec ++ [fld]) cs
    else if c = '\n' || c = '\r' then (rec ++ [fld]) :: csvAux .start [] [] cs
    else csvAux .field (fld ++ [c]) rec cs
  | .quoted, fld, rec, [] => [rec ++ [fld]]
  | .quoted, fld, rec, c :: cs =>
    if c = '"' then csvAux .postq fld rec cs
    else csvAux .quoted (fld ++ [c]) rec cs
  | .postq, fld, rec, [] => [rec ++ [fld]]
  | .postq, fld, rec, c :: cs =>
    if c = '"' then csvAux .quoted (fld ++ ['"']) rec cs
    else if c = '|' then csvAux .start [] (rec ++ [fld]) cs
    else if c = '\n' || c = '\r' then (rec ++ [fld]) :: csvAux .start [] [] cs
    else csvAux .field (fld ++ [c]) rec cs

/-- All records of a CSV text. -/
def csvSplit (content : Str) : List (List Str) :=
  csvAux .start [] [] content

/-- Field lookup as `DictReader` materializes a record: the value at the
position of `name` in the header row, the empty string when the record is
short or the name missing (downstream code reads every absent/`None` value
through `or ""`/`str`, so `""` is the faithful observable value). -/
def dictField (hdr rec : List Str) (name : Str) : Str :=
  match hdr.findIdx? (fun h => h = name) with
  | some i => rec.getD i []
  | none => []

/-- A parsed record as the `Row9` the rest of `main` observes. -/
def recToRow9 (hdr rec : List Str) : Row9 :=
  { id := dictField hdr rec "id".data,
    date := dictField hdr rec "date".data,
    title := dictField hdr rec "title".data,
    link := dictField hdr rec "link".data,
    pdf_link := dictField hdr rec "pdf_link".data,
    pdf_filename := dictField hdr rec "pdf_filename".data,
    pdf_downloaded := dictField hdr rec "pdf_downloaded".data,
    created_at := dictField hdr rec "created_at".data,
    source_commit := dictField hdr rec "source_commit".data }

/-- `load_master_csv` (lines 140-148) on a file with the given text:
`DictReader` takes the first record as the header, skips blank records,
and yields one dict per remaining record. -/
def load_master_csv (content : Str) : List Row9 :=
  match (csvSplit content).filter (fun rec => rec ≠ []) with
  | [] => []
  | hdr :: rest => rest.map (recToRow9 hdr)

/-! ## File-event trace of the snapshot-merge run (for the persistence
timing claims) -/

/-- An externally visible file/navigation event of the snapshot-merge
`main`. -/
inductive SnapEv where
  | visit (link : Str)
  | catalogWrite (content : Str)
  | jsonWrite (rows : List Row9)
deriving DecidableEq

/-- The events of the candidate loop alone: one detail-page visit per
non-skipped candidate, no file writes (lines 234-274 touch no file). -/
def snapLoopEvents : List (Candidate × SnapWorld) → SnapState → List SnapEv
  | [], _ => []
  | (e, w) :: rest, st =>
    (if titleKey e.title ∈ st.titles then [] else [SnapEv.visit e.link]) ++
      snapLoopEvents rest (snapStep w e st)

/-- The whole run's event trace (lines 234-282): the loop's visits, then
the single catalog rewrite, then the JSON artifact. -/
def snapTrace (cws : List (Candidate × SnapWorld)) (st : SnapState) : List SnapEv :=
  snapLoopEvents cws st ++
    [SnapEv.catalogWrite (write_csv_content (snapRun cws st).newMaster),
     SnapEv.jsonWrite (snapRun cws st).newEntries]

/-- The catalog file's content after a list of events, starting from
`old`: only `catalogWrite` changes it. -/
def catalogAfter (old : Str) : List SnapEv → Str
  | [] => old
  | SnapEv.catalogWrite c :: evs => catalogAfter c evs
  | _ :: evs => catalogAfter old evs

/-- The successive on-disk contents of the catalog file **during** the
final rewrite itself: `open(path, "w")` truncates the file at once, the
writer then appends the header and one encoded row at a time, and the LF
normalization pass (lines 174-183) reopens the file with `"wb"` —
truncating it again — before writing the normalized bytes.  A crash
between any two steps leaves the file in the corresponding state. -/
def write_csv_states (rows : List Row9) : List Str :=
  let lines := (masterHeader :: rows.map writeRowValues).map
    (fun fs => encodeRecord fs ++ ['\r', '\n'])
  let partials := (List.range (lines.length + 1)).map
    (fun k => (lines.take k).flatten)
  [] :: partials ++ [[], write_csv_content rows]

/-- The first run of the snapshot-merge pipeline against an empty catalog
(`load_master_csv` of a missing file yields `[]`, so `existing_titles`
starts empty). -/
def snapFirstRun (cws : List (Candidate × SnapWorld)) : SnapState :=
  snapRun cws ⟨[], [], []⟩

/-- The catalog as the second run loads it back from the file the first
run wrote. -/
def snapReload (cws : List (Candidate × SnapWorld)) : List Row9 :=
  load_master_csv (write_csv_content (snapFirstRun cws).newMaster)

/-- The second run against the same candidates, seeded from the reloaded
catalog exactly as `main` does (lines 222-232). -/
def snapSecondRun (cws : List (Candidate × SnapWorld)) : SnapState :=
  snapRun cws ⟨existingTitles (snapReload cws), snapReload cws, []⟩

/-! ## Concrete instances used as counterexamples and witnesses -/

/-- A detail page whose first targeted selector hits an iframe with a PDF
source. -/
def exPage : PageDoc :=
  { url := "https://h.in/p".data,
    sel1 := fun sel =>
      if sel = "iframe[src$='.pdf']" then
        some { attrs := [("src", "https://h.in/d.pdf".data)], innerText := [] }
      else none,
    selAll := fun _ => [],
    frames := [] }

/-- A detail page where tiers 1-3 miss, the anchor heuristic matches one
URL, and the frame tier would match a different one. -/
def pgAnchorVsFrame : PageDoc :=
  { url := "https://h.in/p".data,
    sel1 := fun _ => none,
    selAll := fun sel =>
      if sel = "a" then
        [{ attrs := [("href", "https://h.in/a.pdf".data)],
           innerText := "view".data }]
      else [],
    frames := [{ url := "https://h.in/f.pdf".data, sel1 := fun _ => none,
                 fails := false }] }

/-- A listing page with a table whose only row has no `td` cells (so the
structured tier yields nothing), while the fallback anchors would yield a
candidate. -/
def pgTableUnproductive : ListingPage :=
  { table := some { tbodyRows := [{ tds := [], anchor := none }], allRows := [] },
    anchors := [{ text := "Circular A".data,
                  href := some "https://h.in/a".data,
                  prevSib := "01 Jan".data, parentPrev := [],
                  evalFails := false }] }

/-- A listing page whose only table row carries a date but no anchor and
no second cell: no usable title. -/
def pgDateOnlyRow : ListingPage :=
  { table := some ⟨[⟨[⟨"01 Jan 2024".data⟩], none⟩], []⟩,
    anchors := [] }

/-- A listing page with one well-formed table row. -/
def pgGoodRow : ListingPage :=
  { table := some
      ⟨[⟨[⟨"01 Jan 2024".data⟩], some ⟨"Circ".data, some "https://h.in/c".data⟩⟩], []⟩,
    anchors := [] }

def exCand : Candidate :=
  { date := "01 Jan 2024".data, title := "Circular A".data,
    link := "https://h.in/a".data }

/-- A candidate whose title contains a single backslash. -/
def slashCand : Candidate :=
  { date := "01 Jan 2024".data, title := "a\\b".data,
    link := "https://h.in/x".data }

def exWorldDl : CandWorld :=
  { detail := some exPage, download := fun _ => true, appendOk := true }

def exWorldFail : CandWorld :=
  { detail := none, download := fun _ => false, appendOk := true }

def exWorldNoAppend : CandWorld :=
  { detail := none, download := fun _ => false, appendOk := false }

def exSnapW : SnapWorld := { detail := none, createdAt := "2024-01-01T00:00:00Z".data }

def exRow9 : Row9 :=
  { id := "sha1:x".data, date := "d".data, title := "T".data,
    link := "L".data, pdf_link := [], pdf_filename := "T.pdf".data,
    pdf_downloaded := "no".data, created_at := "c".data, source_commit := [] }

def exRow9b : Row9 :=
  { exRow9 with title := "U".data, pdf_filename := "U.pdf".data }

/-! ## Predicates used by the verification -/

/-- The filename component of `dest_path` after the caller's fix-up (the
part of `destPath` after the `pdfs/` directory). -/
def finalPdfName (u title_raw : Str) : Str :=
  if endsPdfCI ("pdfs/".data ++ choose_name_for_pdf u title_raw) then
    choose_name_for_pdf u title_raw
  else choose_name_for_pdf u title_raw ++ ".pdf".data

/-- A character that survives the shared sanitizing pipeline (CR/LF to
space, forbidden runs to `_`, whitespace runs to a single space). -/
def legalChar (c : Char) : Prop :=
  isForbidden c = false ∧ (c = ' ' ∨ isPySpace c = false)

/-- A character the `write_csv`/`load_master_csv` pair round-trips
verbatim: not the escape character `\` (which the writer doubles but the
reader keeps doubled) and not CR/LF (which the LF-normalization pass can
rewrite). -/
def cleanChar (c : Char) : Bool :=
  !(c = '\\' || c = '\r' || c = '\n')

def cleanStr (s : Str) : Bool := s.all cleanChar

/-- No two adjacent spaces (the shape `re.sub(r'\s+', ' ', ·)` leaves). -/
def noTwoSpaces : Str → Bool
  | [] => true
  | [_] => true
  | a :: b :: cs => !(a = ' ' && b = ' ') && noTwoSpaces (b :: cs)

/-- Every whitespace character is a plain space. -/
def wsOnlySpace (s : Str) : Bool := s.all (fun c => !(isPySpace c) || c = ' ')

/-! ## Sanity anchors: the embedded primitives on pinned concrete cases -/

theorem sanity_text_primitives :
    pyStrip "  ab c  ".data = "ab c".data ∧
    safe_filename "a/b\\c".data = "a_b_c.pdf".data ∧
    safe_filename "  hi   there\n".data = "hi there.pdf".data ∧
    safe_filename "t.PDF".data = "t.PDF".data ∧
    safe_filename_upd "a:b".data = "a_b".data ∧
    containsStr "xx.pdfyy".data ".pdf".data = true ∧
    containsStr "xpdf".data ".pdf".data = false := by decide

theorem sanity_url_primitives :
    pyUnquote "a%2Fb.pdf".data = "a/b.pdf".data ∧
    urlPath "https://h.in/a/b.pdf?x=1".data = "/a/b.pdf".data ∧
    pathName "/a/b.pdf".data = "b.pdf".data ∧
    urljoin "https://h.in/a/p.html".data "d.pdf".data
      = "https://h.in/a/d.pdf".data ∧
    urljoin "https://h.in/a/p.html".data "https://x.y/q.pdf".data
      = "https://x.y/q.pdf".data ∧
    urljoin "https://h.in/a/p.html".data "/q.pdf".data
      = "https://h.in/q.pdf".data := by decide

theorem sanity_csv_dialect :
    csvSplit "a|b\nc\n".data = [["a".data, "b".data], ["c".data]] ∧
    csvSplit "\"a|b\"\n".data = [["a|b".data]] ∧
    csvSplit "\"a\"\"b\"\n".data = [["a\"b".data]] ∧
    csvSplit "a\\\\b\n".data = [["a\\\\b".data]] ∧
    encodeField "a\\b".data = "a\\\\b".data ∧
    encodeField "a|b".data = "\"a|b\"".data ∧
    csvSplit "x\n\ny\n".data = [["x".data], [], ["y".data]] := by decide

/-! ## Character-level facts about the sanitizers -/

theorem squashRunsAux_mem (p : Char → Bool) (rep : Char) :
    ∀ (s : Str) (b : Bool) (c : Char), c ∈ squashRunsAux p rep b s →
      c = rep ∨ (c ∈ s ∧ p c = false) := by
  intro s
  induction s with
  | nil => intro b c h; simp [squashRunsAux] at h
  | cons a as ih =>
    intro b c h
    by_cases hp : p a
    · cases b with
      | false =>
        simp only [squashRunsAux, hp, if_true] at h
        rcases List.mem_cons.mp h with h1 | h1
        · exact Or.inl h1
        · rcases ih true c h1 with h2 | ⟨h3, h4⟩
          · exact Or.inl h2
          · exact Or.inr ⟨List.mem_cons_of_mem _ h3, h4⟩
      | true =>
        simp only [squashRunsAux, hp, if_true] at h
        rcases ih true c h with h2 | ⟨h3, h4⟩
        · exact Or.inl h2
        · exact Or.inr ⟨List.mem_cons_of_mem _ h3, h4⟩
    · simp only [squashRunsAux, hp, if_false] at h
      rcases List.mem_cons.mp h with h1 | h1
      · subst h1; exact Or.inr ⟨List.mem_cons_self _ _, by simpa using hp⟩
      · rcases ih false c h1 with h2 | ⟨h3, h4⟩
        · exact Or.inl h2
        · exact Or.inr ⟨List.mem_cons_of_mem _ h3, h4⟩

theorem mem_squashRuns {p : Char → Bool} {rep : Char} {s : Str} {c : Char}
    (h : c ∈ squashRuns p rep s) : c = rep ∨ (c ∈ s ∧ p c = false) :=
  squashRunsAux_mem p rep s false c h

theorem mem_pyStrip {c : Char} {s : Str} (h : c ∈ pyStrip s) : c ∈ s := by
  unfold pyStrip at h
  rw [List.mem_reverse] at h
  have h2 := (List.dropWhile_sublist (l := (s.dropWhile isPySpace).reverse)
    (p := isPySpace)).subset h
  rw [List.mem_reverse] at h2
  exact (List.dropWhile_sublist (l := s) (p := isPySpace)).subset h2

theorem mem_crlfToSpace {c : Char} {s : Str} (h : c ∈ crlfToSpace s) :
    c = ' ' ∨ (c ∈ s ∧ c ≠ '\r' ∧ c ≠ '\n') := by
  unfold crlfToSpace at h
  rcases List.mem_map.mp h with ⟨d, hd, hdc⟩
  by_cases hcr : d = '\r' <;> by_cases hnl : d = '\n' <;>
    simp [hcr, hnl] at hdc <;> subst hdc
  · left; rfl
  · left; rfl
  · left; rfl
  · exact Or.inr ⟨hd, hcr, hnl⟩

theorem sanitized_chars (t : Str) :
    ∀ c ∈ pySanitize t, legalChar c := by
  intro c hc
  rcases mem_squashRuns hc with h1 | ⟨h2, h3⟩
  · subst h1; exact ⟨by decide, Or.inl rfl⟩
  · rcases mem_squashRuns h2 with h4 | ⟨_, h6⟩
    · subst h4; exact ⟨by decide, Or.inr h3⟩
    · exact ⟨h6, Or.inr h3⟩

theorem legalChar_pdfExt : ∀ c ∈ ".pdf".data, legalChar c := by
  intro c hc
  have h : c = '.' ∨ c = 'p' ∨ c = 'd' ∨ c = 'f' := by simpa using hc
  rcases h with h | h | h | h <;> subst h <;> exact ⟨by decide, Or.inr (by decide)⟩

/-- Every character of a `safe_filename` result is legal: not one of the
nine forbidden characters, and the only whitespace it can be is a plain
space (in particular it is neither CR nor LF nor a backslash). -/
theorem sfBase_chars (s : Str) : ∀ c ∈ sfBase s, legalChar c := by
  intro c hc
  exact sanitized_chars _ c (List.mem_of_mem_take (mem_pyStrip hc))

theorem pdfExtend_chars (b : Str) (hb : ∀ c ∈ b, legalChar c) :
    ∀ c ∈ pdfExtend b, legalChar c := by
  intro c hc
  unfold pdfExtend at hc
  split at hc
  · exact hb c hc
  · rcases List.mem_append.mp hc with h | h
    · exact hb c h
    · exact legalChar_pdfExt c h

theorem safe_filename_chars (s fb : Str) :
    ∀ c ∈ safe_filename s fb, legalChar c :=
  pdfExtend_chars _ (sfBase_chars _)

/-- Characters of `safe_filename_upd` are legal provided the fallback's
are (the fallback is returned unsanitized in this variant). -/
theorem safe_filename_upd_chars (s fb : Str) (hfb : ∀ c ∈ fb, legalChar c) :
    ∀ c ∈ safe_filename_upd s fb, legalChar c := by
  intro c hc
  unfold safe_filename_upd at hc
  split at hc
  · exact hfb c hc
  · exact sanitized_chars _ c (List.mem_of_mem_take hc)

theorem legalChar_not_cr_lf {c : Char} (h : legalChar c) :
    isForbidden c = false ∧ c ≠ '\r' ∧ c ≠ '\n' := by
  refine ⟨h.1, ?_, ?_⟩ <;> rcases h.2 with h2 | h2 <;>
    first
      | (subst h2; decide)
      | (intro he; subst he; simp [isPySpace] at h2)

/-! ## Length and suffix facts about the filename derivations -/

theorem pyStrip_length_le (s : Str) : (pyStrip s).length ≤ s.length := by
  unfold pyStrip
  have h1 := (List.dropWhile_sublist (l := s) (p := isPySpace)).length_le
  have h2 := (List.dropWhile_sublist (l := (s.dropWhile isPySpace).reverse)
    (p := isPySpace)).length_le
  simp only [List.length_reverse] at *
  omega

theorem sfBase_length (s : Str) : (sfBase s).length ≤ 150 := by
  unfold sfBase
  have h1 := pyStrip_length_le ((pySanitize s).take 150)
  have h2 : ((pySanitize s).take 150).length ≤ 150 := by
    simp [List.length_take]
  omega

theorem pdfExtend_length (b : Str) : (pdfExtend b).length ≤ b.length + 4 := by
  unfold pdfExtend
  split
  · omega
  · simp

theorem safe_filename_length (s fb : Str) : (safe_filename s fb).length ≤ 154 := by
  unfold safe_filename
  have h1 := pdfExtend_length (sfBase (if s = [] then fb else s))
  have h2 := sfBase_length (if s = [] then fb else s)
  omega

theorem safe_filename_upd_length (s fb : Str) (hfb : fb.length ≤ 180) :
    (safe_filename_upd s fb).length ≤ 180 := by
  unfold safe_filename_upd
  split
  · exact hfb
  · simp [List.length_take]

theorem lowerStr_append (x y : Str) : lowerStr (x ++ y) = lowerStr x ++ lowerStr y :=
  List.map_append _ x y

theorem endsPdfCI_append (x : Str) : endsPdfCI (x ++ ".pdf".data) = true := by
  unfold endsPdfCI
  rw [lowerStr_append]
  have h2 : lowerStr ".pdf".data = ".pdf".data := by decide
  rw [h2]
  simp [List.isSuffixOf_iff_suffix]

theorem endsPdfCI_mono (x n : Str) (h : endsPdfCI n = true) :
    endsPdfCI (x ++ n) = true := by
  unfold endsPdfCI at *
  rw [lowerStr_append]
  rw [List.isSuffixOf_iff_suffix] at h ⊢
  exact h.trans (List.suffix_append _ _)

theorem pdfExtend_ends (b : Str) : endsPdfCI (pdfExtend b) = true := by
  unfold pdfExtend
  split
  · assumption
  · exact endsPdfCI_append b

theorem safe_filename_ends (s fb : Str) : endsPdfCI (safe_filename s fb) = true :=
  pdfExtend_ends _

/-- A `.pdf` suffix of `pdfs/<name>` cannot straddle the directory part:
the name itself ends in `.pdf`. -/
theorem endsPdf_strip_dir (n : Str) (h : endsPdfCI ("pdfs/".data ++ n) = true) :
    endsPdfCI n = true := by
  unfold endsPdfCI at *
  rw [lowerStr_append] at h
  have hlow : lowerStr "pdfs/".data = "pdfs/".data := by decide
  rw [hlow] at h
  rw [List.isSuffixOf_iff_suffix] at h ⊢
  obtain ⟨t, ht⟩ := h
  have hlen : t.length = (lowerStr n).length + 1 := by
    have := congrArg List.length ht
    simpa using this
  by_cases h4 : 4 ≤ (lowerStr n).length
  · have h5 : 5 ≤ t.length := by omega
    have hd := congrArg (List.drop 5) ht
    rw [List.drop_append_of_le_length h5] at hd
    rw [List.drop_append_of_le_length (by simp)] at hd
    have hd5 : ("pdfs/".data : Str).drop 5 = [] := by decide
    rw [hd5, List.nil_append] at hd
    exact ⟨t.drop 5, hd⟩
  · exfalso
    have h5 : t.length ≤ 4 := by omega
    have hg := congrArg (fun l => l[4]?) ht
    simp only at hg
    rw [List.getElem?_append_right h5] at hg
    rw [List.getElem?_append_left (by simp)] at hg
    have hslash : ("pdfs/".data)[4]? = some '/' := by decide
    rw [hslash] at hg
    have hk : 4 - t.length ≤ 3 := by omega
    interval_cases h : (4 - t.length) <;> simp_all

theorem document_fallback_chars : ∀ c ∈ "document".data, legalChar c := by
  intro c hc
  have h : c = 'd' ∨ c = 'o' ∨ c = 'c' ∨ c = 'u' ∨ c = 'm' ∨ c = 'e' ∨
      c = 'n' ∨ c = 't' := by simpa using hc
  rcases h with h | h | h | h | h | h | h | h <;> subst h <;>
    exact ⟨by decide, Or.inr (by decide)⟩

theorem choose_name_chars (u t : Str) :
    ∀ c ∈ choose_name_for_pdf u t, legalChar c := by
  intro c hc
  simp only [choose_name_for_pdf] at hc
  have hinner : ∀ d ∈ safe_filename_upd t "document".data, legalChar d :=
    safe_filename_upd_chars _ _ document_fallback_chars
  split at hc
  · exact safe_filename_upd_chars _ _ hinner c hc
  · rcases List.mem_append.mp hc with h | h
    · exact hinner c h
    · exact legalChar_pdfExt c h

/-- Either the chosen name is bounded by the 180-character base, or it
already ends in `.pdf` and is bounded by base-plus-suffix. -/
theorem choose_name_length_cases (u t : Str) :
    (choose_name_for_pdf u t).length ≤ 180 ∨
      (endsPdfCI (choose_name_for_pdf u t) = true ∧
        (choose_name_for_pdf u t).length ≤ 184) := by
  have hinner : (safe_filename_upd t "document".data).length ≤ 180 :=
    safe_filename_upd_length _ _ (by decide)
  simp only [choose_name_for_pdf]
  split
  · exact Or.inl (safe_filename_upd_length _ _ hinner)
  · refine Or.inr ⟨endsPdfCI_append _, ?_⟩
    have hinner2 : (safe_filename_upd t ['d', 'o', 'c', 'u', 'm', 'e', 'n', 't']).length ≤ 180 :=
      hinner
    simp only [List.length_append]
    have h4 : List.length (['.', 'p', 'd', 'f'] : Str) = 4 := rfl
    omega

theorem destPath_eq (u t : Str) :
    destPath u t = "pdfs/".data ++ finalPdfName u t := by
  simp only [destPath, finalPdfName]
  split
  · rfl
  · rw [List.append_assoc]

theorem finalPdfName_props (u t : Str) :
    (∀ c ∈ finalPdfName u t, legalChar c) ∧
    (finalPdfName u t).length ≤ 184 ∧
    endsPdfCI (finalPdfName u t) = true := by
  unfold finalPdfName
  split
  case isTrue h =>
    rcases choose_name_length_cases u t with hl | ⟨_, hl⟩
    · exact ⟨choose_name_chars u t, by omega, endsPdf_strip_dir _ h⟩
    · exact ⟨choose_name_chars u t, hl, endsPdf_strip_dir _ h⟩
  case isFalse h =>
    rcases choose_name_length_cases u t with hl | ⟨he, _⟩
    · refine ⟨?_, ?_, endsPdfCI_append _⟩
      · intro c hc
        rcases List.mem_append.mp hc with h1 | h1
        · exact choose_name_chars u t c h1
        · exact legalChar_pdfExt c h1
      · simp only [List.length_append]
        have h4 : List.length (['.', 'p', 'd', 'f'] : Str) = 4 := rfl
        omega
    · exact absurd (endsPdfCI_mono "pdfs/".data _ he) (by simpa using h)

/-- **C6.** For every input title (and resolved URL), the derived local
filename contains none of the forbidden characters `/ \ : * ? " < > |`
and no embedded CR/LF, stays below the configured bound (a 150-character
base plus the `.pdf` suffix in the snapshot-merge variant, a
180-character base plus the suffix in the download-capable variant), and
ends with `.pdf` (case-insensitively, as the code itself checks): this
holds for `safe_filename` and for the name `choose_name_for_pdf` produces
after the caller's suffix fix-up, whose full destination is
`pdfs/<name>`. -/
theorem claim6_filename_safety (title url fb : Str) :
    ((∀ c ∈ safe_filename title fb,
        isForbidden c = false ∧ c ≠ '\r' ∧ c ≠ '\n') ∧
      (safe_filename title fb).length ≤ 150 + 4 ∧
      endsPdfCI (safe_filename title fb) = true) ∧
    ((∀ c ∈ finalPdfName url title,
        isForbidden c = false ∧ c ≠ '\r' ∧ c ≠ '\n') ∧
      (finalPdfName url title).length ≤ 180 + 4 ∧
      endsPdfCI (finalPdfName url title) = true ∧
      destPath url title = "pdfs/".data ++ finalPdfName url title) := by
  obtain ⟨h1, h2, h3⟩ := finalPdfName_props url title
  refine ⟨⟨?_, safe_filename_length title fb, safe_filename_ends title fb⟩,
    ⟨?_, h2, h3, destPath_eq url title⟩⟩
  · intro c hc
    exact legalChar_not_cr_lf (safe_filename_chars title fb c hc)
  · intro c hc
    exact legalChar_not_cr_lf (h1 c hc)

/-! ## Per-candidate persistence (claims C1, C7, C10) -/

theorem buildRowUpd_title (w : CandWorld) (idx : Nat) (e : Candidate) :
    (buildRowUpd w idx e).title = titleRawOf idx e := by
  unfold buildRowUpd
  rcases resolvedUrlUpd w with _ | u
  · rfl
  · by_cases h : w.download u = true <;> simp [h]

theorem buildRowUpd_pageFail (w : CandWorld) (idx : Nat) (e : Candidate)
    (hd : w.detail = none) :
    (buildRowUpd w idx e).pdf_link = [] ∧
    (buildRowUpd w idx e).pdf_downloaded = "no".data := by
  have hr : resolvedUrlUpd w = none := by simp [resolvedUrlUpd, hd]
  unfold buildRowUpd
  rw [hr]
  exact ⟨rfl, rfl⟩

theorem buildRowSnap_noDownload (w : SnapWorld) (e : Candidate) :
    (buildRowSnap w e).pdf_downloaded = "no".data := rfl

theorem buildRowSnap_pageFail (w : SnapWorld) (e : Candidate)
    (hd : w.detail = none) : (buildRowSnap w e).pdf_link = [] := by
  simp [buildRowSnap, hd]

/-- **C1.** In both variants, a candidate whose dedup key is already known
is skipped with the state unchanged, and otherwise exactly one row is
persisted — also when the detail page fails to load, no URL resolves or
the download fails — with `pdf_link` empty and `pdf_downloaded = "no"` in
the page-failure case.  (For the append-only variant this is stated for an
iteration whose CSV append succeeds; `writerow` failure is the separate
`PersistenceFailure` mode, settled by C10.) -/
theorem claim1_exactly_one_entry
    (w : CandWorld) (idx : Nat) (e : Candidate) (st : UpdState)
    (hok : w.appendOk = true)
    (sw : SnapWorld) (se : Candidate) (sst : SnapState) :
    (titleKey (titleRawOf idx e) ∈ st.titles → updStep w idx e st = st) ∧
    (titleKey (titleRawOf idx e) ∉ st.titles →
      (updStep w idx e st).rows = st.rows ++ [buildRowUpd w idx e] ∧
      (updStep w idx e st).titles = titleKey (titleRawOf idx e) :: st.titles ∧
      (w.detail = none → (buildRowUpd w idx e).pdf_link = [] ∧
        (buildRowUpd w idx e).pdf_downloaded = "no".data)) ∧
    (titleKey se.title ∈ sst.titles → snapStep sw se sst = sst) ∧
    (titleKey se.title ∉ sst.titles →
      (snapStep sw se sst).newMaster = sst.newMaster ++ [buildRowSnap sw se] ∧
      (snapStep sw se sst).newEntries = sst.newEntries ++ [buildRowSnap sw se] ∧
      (buildRowSnap sw se).pdf_downloaded = "no".data ∧
      (sw.detail = none → (buildRowSnap sw se).pdf_link = [])) := by
  refine ⟨?_, ?_, ?_, ?_⟩
  · intro h; simp [updStep, h]
  · intro h
    refine ⟨?_, ?_, buildRowUpd_pageFail w idx e⟩ <;> simp [updStep, h, hok]
  · intro h; simp [snapStep, h]
  · intro h
    refine ⟨?_, ?_, buildRowSnap_noDownload sw se, buildRowSnap_pageFail sw se⟩ <;>
      simp [snapStep, h]

theorem claim1_witness :
    titleKey (titleRawOf 1 exCand) ∉ ([] : List Str) ∧
    (updStep exWorldFail 1 exCand ⟨[], [], 0⟩).rows = [buildRowUpd exWorldFail 1 exCand] ∧
    (buildRowUpd exWorldFail 1 exCand).pdf_link = [] ∧
    (buildRowUpd exWorldFail 1 exCand).pdf_downloaded = "no".data ∧
    (snapStep exSnapW exCand ⟨[], [], []⟩).newEntries = [buildRowSnap exSnapW exCand] := by
  have hnot : titleKey (titleRawOf 1 exCand) ∉ ([] : List Str) := by decide
  have h := claim1_exactly_one_entry exWorldFail 1 exCand ⟨[], [], 0⟩ rfl
    exSnapW exCand ⟨[], [], []⟩
  obtain ⟨-, h2, -, h4⟩ := h
  obtain ⟨hr, -, hpf⟩ := h2 hnot
  obtain ⟨hpl, hpd⟩ := hpf rfl
  obtain ⟨-, hne, -, -⟩ := h4 hnot
  exact ⟨hnot, by simpa using hr, hpl, hpd, by simpa using hne⟩

theorem buildRowUpd_none (w : CandWorld) (idx : Nat) (e : Candidate)
    (hu : resolvedUrlUpd w = none) :
    buildRowUpd w idx e =
      { date := e.date, title := titleRawOf idx e, link := e.link,
        pdf_link := [], pdf_filename := [], pdf_downloaded := "no".data } := by
  unfold buildRowUpd
  rw [hu]

theorem buildRowUpd_some_dl (w : CandWorld) (idx : Nat) (e : Candidate)
    (u : Str) (hu : resolvedUrlUpd w = some u) (hdl : w.download u = true) :
    buildRowUpd w idx e =
      { date := e.date, title := titleRawOf idx e, link := e.link,
        pdf_link := u, pdf_filename := destPath u (titleRawOf idx e),
        pdf_downloaded := "yes".data } := by
  unfold buildRowUpd
  rw [hu]
  simp [hdl]

theorem buildRowUpd_some_fail (w : CandWorld) (idx : Nat) (e : Candidate)
    (u : Str) (hu : resolvedUrlUpd w = some u) (hdl : w.download u = false) :
    buildRowUpd w idx e =
      { date := e.date, title := titleRawOf idx e, link := e.link,
        pdf_link := u, pdf_filename := [], pdf_downloaded := "no".data } := by
  unfold buildRowUpd
  rw [hu]
  simp [hdl]

set_option maxHeartbeats 3000000 in
/-- **C7.** A persisted row with `pdf_downloaded = "yes"` can only come
from the download-capable variant's success branch: the byte-fetch of its
`pdf_link` succeeded and its `pdf_filename` is a nonempty path; the
snapshot-merge variant never writes `"yes"` at all. -/
theorem claim7_downloaded_implies_fetch :
    (∀ (w : CandWorld) (idx : Nat) (e : Candidate),
      (buildRowUpd w idx e).pdf_downloaded = "yes".data →
        w.download (buildRowUpd w idx e).pdf_link = true ∧
        (buildRowUpd w idx e).pdf_filename ≠ []) ∧
    (∀ (sw : SnapWorld) (se : Candidate),
      (buildRowSnap sw se).pdf_downloaded = "no".data) := by
  constructor
  · intro w idx e hyes
    rcases hu : resolvedUrlUpd w with _ | u
    · rw [buildRowUpd_none w idx e hu] at hyes
      exact absurd hyes (by simp)
    · by_cases hdl : w.download u = true
      · rw [buildRowUpd_some_dl w idx e u hu hdl] at hyes ⊢
        refine ⟨hdl, ?_⟩
        show destPath u (titleRawOf idx e) ≠ []
        rw [destPath_eq]
        simp
      · rw [buildRowUpd_some_fail w idx e u hu (by simpa using hdl)] at hyes
        exact absurd hyes (by simp)
  · intro sw se; rfl

theorem claim7_witness :
    (buildRowUpd exWorldDl 1 exCand).pdf_downloaded = "yes".data ∧
    exWorldDl.download (buildRowUpd exWorldDl 1 exCand).pdf_link = true ∧
    (buildRowUpd exWorldDl 1 exCand).pdf_filename ≠ [] := by
  have hyes : (buildRowUpd exWorldDl 1 exCand).pdf_downloaded = "yes".data := by decide
  obtain ⟨h1, h2⟩ := claim7_downloaded_implies_fetch.1 exWorldDl 1 exCand hyes
  exact ⟨hyes, h1, h2⟩

theorem updStep_skip (w : CandWorld) (idx : Nat) (e : Candidate) (st : UpdState)
    (hmem : titleKey (titleRawOf idx e) ∈ st.titles) : updStep w idx e st = st := by
  simp [updStep, hmem]

theorem updStep_append (w : CandWorld) (idx : Nat) (e : Candidate) (st : UpdState)
    (hmem : titleKey (titleRawOf idx e) ∉ st.titles) (hok : w.appendOk = true) :
    updStep w idx e st =
      { titles := titleKey (titleRawOf idx e) :: st.titles,
        rows := st.rows ++ [buildRowUpd w idx e], added := st.added + 1 } := by
  simp [updStep, hmem, hok]

theorem updStep_appendFail (w : CandWorld) (idx : Nat) (e : Candidate) (st : UpdState)
    (hok : w.appendOk = false) : updStep w idx e st = st := by
  by_cases hmem : titleKey (titleRawOf idx e) ∈ st.titles
  · simp [updStep, hmem]
  · simp [updStep, hmem, hok]

/-- **C10.** In the append-only variant the in-run dedup set moves in
lock-step with persistence: an iteration whose `writerow`/`flush` raises
leaves the whole state (set, rows, counter) unchanged, and after any run
the title set is exactly the initial set extended by the keys of the rows
that were successfully appended. -/
theorem claim10_dedup_set_sync :
    (∀ (w : CandWorld) (idx : Nat) (e : Candidate) (st : UpdState),
      w.appendOk = false → updStep w idx e st = st) ∧
    (∀ (cws : List (Candidate × CandWorld)) (idx0 : Nat) (st : UpdState),
      ∃ new : List Row6,
        (updRun cws idx0 st).rows = st.rows ++ new ∧
        (updRun cws idx0 st).titles =
          (new.map fun r => titleKey r.title).reverse ++ st.titles ∧
        (updRun cws idx0 st).added = st.added + new.length) := by
  constructor
  · exact updStep_appendFail
  · intro cws
    induction cws with
    | nil =>
      intro idx0 st
      exact ⟨[], by simp [updRun], by simp [updRun], by simp [updRun]⟩
    | cons p rest ih =>
      intro idx0 st
      obtain ⟨e, w⟩ := p
      by_cases hmem : titleKey (titleRawOf idx0 e) ∈ st.titles
      · obtain ⟨new', h1, h2, h3⟩ := ih (idx0 + 1) st
        refine ⟨new', ?_, ?_, ?_⟩ <;>
          simp only [updRun, updStep_skip w idx0 e st hmem] <;> assumption
      · by_cases hok : w.appendOk = true
        · obtain ⟨new', h1, h2, h3⟩ := ih (idx0 + 1)
            ⟨titleKey (titleRawOf idx0 e) :: st.titles,
             st.rows ++ [buildRowUpd w idx0 e], st.added + 1⟩
          refine ⟨buildRowUpd w idx0 e :: new', ?_, ?_, ?_⟩ <;>
            simp only [updRun, updStep_append w idx0 e st hmem hok]
          · rw [h1]; simp
          · rw [h2]; simp [buildRowUpd_title]
          · rw [h3]; simp; omega
        · obtain ⟨new', h1, h2, h3⟩ := ih (idx0 + 1) st
          refine ⟨new', ?_, ?_, ?_⟩ <;>
            simp only [updRun,
              updStep_appendFail w idx0 e st (by simpa using hok)] <;>
            assumption

theorem claim10_witness :
    updStep exWorldNoAppend 1 exCand ⟨[], [], 0⟩ = ⟨[], [], 0⟩ ∧
    (∃ new : List Row6,
      (updRun [(exCand, exWorldFail)] 1 ⟨[], [], 0⟩).rows = [] ++ new ∧
      (updRun [(exCand, exWorldFail)] 1 ⟨[], [], 0⟩).titles =
        (new.map fun r => titleKey r.title).reverse ++ [] ∧
      (updRun [(exCand, exWorldFail)] 1 ⟨[], [], 0⟩).added = 0 + new.length) :=
  ⟨claim10_dedup_set_sync.1 exWorldNoAppend 1 exCand ⟨[], [], 0⟩ rfl,
   claim10_dedup_set_sync.2 [(exCand, exWorldFail)] 1 ⟨[], [], 0⟩⟩

/-! ## Listing extraction tiers (claims C3, C4) -/

/-- **C3, counterexample.** A listing page whose table exists but yields
zero candidates: in the snapshot-merge variant the extractor returns `[]`
without ever running the anchor fallback, although the fallback would
have produced a candidate — refuting "if the tabular structure yields
zero candidates, the fallback tier runs ... in both variants". -/
theorem claim3_counterexample :
    extract_entries_from_table pgTableUnproductive = [] ∧
    extract_entries_from_listing pgTableUnproductive = [] ∧
    fallback_extract_entries pgTableUnproductive =
      [⟨"01 Jan".data, "Circular A".data, "https://h.in/a".data⟩] := by
  refine ⟨by decide, by decide, by decide⟩

/-- **C3, amended.** In the download-capable variant the fallback tier
runs exactly when the structured tier yields zero candidates (whether
because no table exists or because the table produced nothing); in the
snapshot-merge variant the fallback runs exactly when no table element
exists, and a present-but-unproductive table yields the empty result
without consulting the fallback. -/
theorem claim3_fallback_usage (pg : ListingPage) :
    (extract_entries_from_table pg ≠ [] →
      listingEntriesUpd pg = extract_entries_from_table pg) ∧
    (extract_entries_from_table pg = [] →
      listingEntriesUpd pg = fallback_extract_entries pg) ∧
    (∀ t, pg.table = some t →
      extract_entries_from_listing pg = structuredRowsCsv (tableRows t)) ∧
    (pg.table = none →
      extract_entries_from_listing pg = fallback_extract_entries pg) := by
  refine ⟨?_, ?_, ?_, ?_⟩
  · intro h; simp [listingEntriesUpd, h]
  · intro h; simp [listingEntriesUpd, h]
  · intro t ht; simp [extract_entries_from_listing, ht]
  · intro ht; simp [extract_entries_from_listing, ht]

theorem claim3_witness :
    listingEntriesUpd pgTableUnproductive =
      fallback_extract_entries pgTableUnproductive ∧
    extract_entries_from_listing pgTableUnproductive =
      structuredRowsCsv (tableRows ⟨[⟨[], none⟩], []⟩) :=
  ⟨(claim3_fallback_usage pgTableUnproductive).2.1 (by decide),
   (claim3_fallback_usage pgTableUnproductive).2.2.1 _ rfl⟩

/-- **C4, counterexample.** In the download-capable variant's structured
tier, a table row with a date but no anchor and no second cell is *kept*
as a candidate whose title is empty — refuting "no candidate with an
empty title is ever emitted by the structured tier ... in both
variants". -/
theorem claim4_counterexample :
    extract_entries_from_table pgDateOnlyRow =
      [{ date := "01 Jan 2024".data, title := [], link := [] }] ∧
    extract_entries_from_listing pgDateOnlyRow = [] := by
  refine ⟨by decide, by decide⟩

/-- **C4, amended.** The snapshot-merge structured tier drops every row
without a usable title, so it never emits an empty-titled candidate; the
download-capable structured tier only drops a row when title *and* date
are both empty, so each of its candidates has a nonempty title or a
nonempty date (and may have an empty title, as the counterexample
shows). -/
theorem claim4_empty_title_filter :
    (∀ (pg : ListingPage) (t : TableEl), pg.table = some t →
      ∀ c ∈ extract_entries_from_listing pg, c.title ≠ []) ∧
    (∀ pg : ListingPage, ∀ c ∈ extract_entries_from_table pg,
      c.title ≠ [] ∨ c.date ≠ []) := by
  constructor
  · intro pg t ht c hc
    rw [(claim3_fallback_usage pg).2.2.1 t ht] at hc
    unfold structuredRowsCsv at hc
    rw [List.mem_filterMap] at hc
    obtain ⟨r, _, hfr⟩ := hc
    split at hfr
    · exact absurd hfr (by simp)
    · simp only [] at hfr
      split at hfr
      · next hti =>
        obtain rfl := Option.some_injective _ hfr
        exact hti
      · exact absurd hfr (by simp)
  · intro pg c hc
    unfold extract_entries_from_table at hc
    split at hc
    · next t ht =>
      unfold structuredRowsUpd at hc
      rw [List.mem_filterMap] at hc
      obtain ⟨r, _, hfr⟩ := hc
      split at hfr
      · exact absurd hfr (by simp)
      · simp only [] at hfr
        split at hfr
        · next hcond =>
          obtain rfl := Option.some_injective _ hfr
          simpa using hcond
        · exact absurd hfr (by simp)
    · exact absurd hc (by simp)

theorem claim4_witness :
    (∀ c ∈ extract_entries_from_listing pgGoodRow, c.title ≠ []) ∧
    (∀ c ∈ extract_entries_from_table pgDateOnlyRow,
      c.title ≠ [] ∨ c.date ≠ []) :=
  ⟨claim4_empty_title_filter.1 pgGoodRow _ rfl,
   claim4_empty_title_filter.2 pgDateOnlyRow⟩

/-! ## Resolution tier order in the download-capable `main` (claim C5) -/

/-- **C5, counterexample.** On a detail page where tiers 1-3 miss, the
anchor heuristic would yield `a.pdf` and the frame tier would yield
`f.pdf`, the code returns the anchor's URL — the anchor heuristic runs
*before* the frame-traversal tier, refuting the claimed order. -/
theorem claim5_counterexample :
    find_pdf_url_on_page_upd pgAnchorVsFrame = none ∧
    frameTier pgAnchorVsFrame.frames = some "https://h.in/f.pdf".data ∧
    resolveMainUpd pgAnchorVsFrame = some "https://h.in/a.pdf".data ∧
    ("https://h.in/a.pdf".data : Str) ≠ "https://h.in/f.pdf".data := by
  refine ⟨by decide, by decide, by decide, by decide⟩

/-- **C5, amended.** The chain order in `main` is: `find_pdf_url_on_page`
(tiers 1-3) first; when it misses, the **anchor heuristic** is consulted
next; the frame-traversal tier runs only when the anchor heuristic also
yields nothing. -/
theorem claim5_tier_order (pg : PageDoc) :
    (∀ u, find_pdf_url_on_page_upd pg = some u → resolveMainUpd pg = some u) ∧
    (find_pdf_url_on_page_upd pg = none →
      (∀ u, anchorHeuristic pg (pg.selAll "a") = some u →
        resolveMainUpd pg = some u) ∧
      (anchorHeuristic pg (pg.selAll "a") = none →
        resolveMainUpd pg = frameTier pg.frames)) := by
  constructor
  · intro u hu
    unfold resolveMainUpd
    rw [hu]
  · intro hnone
    constructor
    · intro u hu
      unfold resolveMainUpd
      rw [hnone, hu]
    · intro ha
      unfold resolveMainUpd
      rw [hnone, ha]

theorem claim5_witness :
    resolveMainUpd pgAnchorVsFrame = some "https://h.in/a.pdf".data ∧
    resolveMainUpd exPage = some "https://h.in/d.pdf".data :=
  ⟨((claim5_tier_order pgAnchorVsFrame).2 (by decide)).1 _ (by decide),
   (claim5_tier_order exPage).1 _ (by decide)⟩

/-! ## Catalog write timing and (non-)atomicity (claim C9) -/

theorem catalogAfter_no_writes (old : Str) (evs : List SnapEv)
    (h : ∀ ev ∈ evs, ∀ c, ev ≠ SnapEv.catalogWrite c) :
    catalogAfter old evs = old := by
  induction evs with
  | nil => rfl
  | cons ev rest ih =>
    cases ev with
    | visit l =>
      exact (ih fun e he c => h e (List.mem_cons_of_mem _ he) c)
    | catalogWrite c =>
      exact absurd rfl (h _ (List.mem_cons_self _ _) c)
    | jsonWrite rows =>
      exact (ih fun e he c => h e (List.mem_cons_of_mem _ he) c)

/-- **C9, counterexample.** The final rewrite is not atomic: `write_csv`
opens the catalog with mode `"w"` (truncating it), writes incrementally,
and the LF-normalization pass truncates and rewrites it again, so the
file passes through intermediate states — among them the empty file —
that are neither the old catalog nor the complete new one. -/
theorem claim9_counterexample :
    ([] : Str) ∈ write_csv_states [exRow9, exRow9b] ∧
    ([] : Str) ≠ write_csv_content [exRow9] ∧
    ([] : Str) ≠ write_csv_content [exRow9, exRow9b] := by
  refine ⟨?_, by decide, by decide⟩
  simp [write_csv_states]

/-- **C9, amended.** No write to the catalog file occurs during candidate
processing: the candidate loop emits only detail-page visits, and under
any crash prefix that ends before the final write the catalog file still
holds its prior content.  (The final rewrite itself is *not* atomic — see
the counterexample — so only the "untouched before the final write" half
of the claim survives.) -/
theorem claim9_no_write_during_processing :
    (∀ (cws : List (Candidate × SnapWorld)) (st : SnapState) (ev : SnapEv),
      ev ∈ snapLoopEvents cws st → ∀ c, ev ≠ SnapEv.catalogWrite c) ∧
    (∀ (cws : List (Candidate × SnapWorld)) (st : SnapState) (old : Str) (k : Nat),
      k ≤ (snapLoopEvents cws st).length →
      catalogAfter old ((snapTrace cws st).take k) = old) := by
  have hloop : ∀ (cws : List (Candidate × SnapWorld)) (st : SnapState) (ev : SnapEv),
      ev ∈ snapLoopEvents cws st → ∀ c, ev ≠ SnapEv.catalogWrite c := by
    intro cws
    induction cws with
    | nil => intro st ev he; simp [snapLoopEvents] at he
    | cons p rest ih =>
      intro st ev he c
      obtain ⟨e, w⟩ := p
      unfold snapLoopEvents at he
      rcases List.mem_append.mp he with h1 | h1
      · split at h1
        · simp at h1
        · rw [List.mem_singleton] at h1
          subst h1
          simp
      · exact ih _ ev h1 c
  refine ⟨hloop, ?_⟩
  intro cws st old k hk
  unfold snapTrace
  rw [List.take_append_of_le_length hk]
  exact catalogAfter_no_writes old _ fun ev he c =>
    hloop cws st ev (List.mem_of_mem_take he) c

theorem claim9_witness :
    catalogAfter "old".data
      ((snapTrace [(exCand, exSnapW)] ⟨[], [], []⟩).take 1) = "old".data :=
  claim9_no_write_during_processing.2 [(exCand, exSnapW)] ⟨[], [], []⟩
    "old".data 1 (by decide)

/-! ## Stability of `safe_filename` (toward claim C8)

`write_csv` re-applies `safe_filename` to every stored `pdf_filename`.
The function is not idempotent (a base that truncates at 149-150
characters can still grow), but applying it twice reaches a fixpoint —
which is exactly what the pipeline stores, since `main` computes
`safe_filename(title)` and `write_csv` applies `safe_filename` once more
before the value ever reaches disk. -/

theorem squashRunsAux_noop (p : Char → Bool) (rep : Char) (s : Str)
    (h : ∀ c ∈ s, p c = false) : ∀ b, squashRunsAux p rep b s = s := by
  induction s with
  | nil => intro b; rfl
  | cons c cs ih =>
    intro b
    have hc : p c = false := h c (List.mem_cons_self _ _)
    simp only [squashRunsAux, hc, Bool.false_eq_true, if_false]
    rw [ih (fun d hd => h d (List.mem_cons_of_mem _ hd)) false]

theorem squashRuns_noop (p : Char → Bool) (rep : Char) (s : Str)
    (h : ∀ c ∈ s, p c = false) : squashRuns p rep s = s :=
  squashRunsAux_noop p rep s h false

theorem crlfToSpace_noop (s : Str) (h : ∀ c ∈ s, c ≠ '\r' ∧ c ≠ '\n') :
    crlfToSpace s = s := by
  unfold crlfToSpace
  have h2 : List.map (fun c => if (c = '\r' || c = '\n') = true then ' ' else c) s =
      List.map id s :=
    List.map_congr_left fun c hc => by simp [(h c hc).1, (h c hc).2]
  rw [h2, List.map_id]

theorem dropWhile_noop (p : Char → Bool) (s : Str)
    (h : ∀ c, s.head? = some c → p c = false) : s.dropWhile p = s := by
  cases s with
  | nil => rfl
  | cons c cs => exact List.dropWhile_cons_of_neg (by simp [h c rfl])

theorem pyStrip_noop (s : Str)
    (hh : ∀ c, s.head? = some c → isPySpace c = false)
    (hl : ∀ c, s.getLast? = some c → isPySpace c = false) :
    pyStrip s = s := by
  unfold pyStrip
  rw [dropWhile_noop _ _ hh]
  rw [dropWhile_noop _ _ (by simpa using hl)]
  exact List.reverse_reverse s

/-- Heads produced by `pyStrip` never satisfy the whitespace test. -/
theorem head?_pyStrip (t : Str) :
    ∀ c, (pyStrip t).head? = some c → isPySpace c = false := by
  intro c hc
  unfold pyStrip at hc
  set A := t.dropWhile isPySpace with hA
  set B := A.reverse.dropWhile isPySpace with hB
  rw [List.head?_reverse] at hc
  by_cases hBn : B = []
  · rw [hBn] at hc; simp at hc
  · have hsuf : B <:+ A.reverse := List.dropWhile_suffix _
    have hlast := hsuf.getLast hBn
    rw [List.getLast?_eq_getLast _ hBn, hlast] at hc
    have hAn : A.reverse ≠ [] := fun hAe => hBn (by simp [hB, hAe])
    rw [← List.getLast?_eq_getLast _ hAn, List.getLast?_reverse] at hc
    have := List.head?_dropWhile_not isPySpace t
    rw [← hA] at this
    rw [hc] at this
    exact this

theorem getLast?_pyStrip (t : Str) :
    ∀ c, (pyStrip t).getLast? = some c → isPySpace c = false := by
  intro c hc
  unfold pyStrip at hc
  rw [List.getLast?_reverse] at hc
  have := List.head?_dropWhile_not isPySpace (t.dropWhile isPySpace).reverse
  rw [hc] at this
  exact this

theorem noTwo_tail (c : Char) (l : Str) (h : noTwoSpaces (c :: l) = true) :
    noTwoSpaces l = true := by
  cases l with
  | nil => rfl
  | cons d ds =>
    unfold noTwoSpaces at h
    exact (Bool.and_eq_true_iff.mp h).2

theorem noTwo_cons_of (c : Char) (l : Str) (h1 : noTwoSpaces l = true)
    (h2 : ∀ d, l.head? = some d → ¬(c = ' ' ∧ d = ' ')) :
    noTwoSpaces (c :: l) = true := by
  cases l with
  | nil => rfl
  | cons d ds =>
    unfold noTwoSpaces
    rw [Bool.and_eq_true_iff]
    refine ⟨?_, h1⟩
    have hnot := h2 d rfl
    simp only [Bool.not_eq_true', Bool.and_eq_false_iff, decide_eq_false_iff_not]
    by_cases hc : c = ' '
    · right; exact fun hd => hnot ⟨hc, hd⟩
    · left; exact hc

theorem noTwo_append_right (a b : Str) (h : noTwoSpaces (a ++ b) = true) :
    noTwoSpaces a = true := by
  induction a with
  | nil => rfl
  | cons x a' ih =>
    cases a' with
    | nil => rfl
    | cons y a'' =>
      simp only [List.cons_append, noTwoSpaces, Bool.and_eq_true_iff] at h ⊢
      exact ⟨h.1, by
        have := ih (by simpa [noTwoSpaces] using h.2)
        simpa using this⟩

theorem noTwo_append_left (a b : Str) (h : noTwoSpaces (a ++ b) = true) :
    noTwoSpaces b = true := by
  induction a with
  | nil => simpa using h
  | cons x a' ih =>
    exact ih (noTwo_tail x _ (by simpa using h))

theorem noTwo_take (n : Nat) (l : Str) (h : noTwoSpaces l = true) :
    noTwoSpaces (l.take n) = true :=
  noTwo_append_right _ _ (by rw [List.take_append_drop]; exact h)

theorem noTwo_pyStrip (l : Str) (h : noTwoSpaces l = true) :
    noTwoSpaces (pyStrip l) = true := by
  unfold pyStrip
  obtain ⟨s, hs⟩ := List.dropWhile_suffix (l := l) (p := isPySpace)
  have h1 : noTwoSpaces (l.dropWhile isPySpace) = true :=
    noTwo_append_left s _ (by rw [hs]; exact h)
  obtain ⟨s', hs'⟩ :=
    List.dropWhile_suffix (l := (l.dropWhile isPySpace).reverse) (p := isPySpace)
  have h2 : l.dropWhile isPySpace =
      ((l.dropWhile isPySpace).reverse.dropWhile isPySpace).reverse ++ s'.reverse := by
    have := congrArg List.reverse hs'
    simpa [List.reverse_append] using this.symm
  exact noTwo_append_right _ _ (by rw [← h2]; exact h1)

theorem squashSpaceAux_facts (s : Str) :
    (∀ b, noTwoSpaces (squashRunsAux isPySpace ' ' b s) = true) ∧
    (∀ c, (squashRunsAux isPySpace ' ' true s).head? = some c → c ≠ ' ') := by
  induction s with
  | nil => exact ⟨fun _ => rfl, by intro c hc; simp [squashRunsAux] at hc⟩
  | cons a as ih =>
    obtain ⟨ih1, ih2⟩ := ih
    have hstep : ∀ (l : Str), (∀ c, l.head? = some c → c ≠ ' ') →
        noTwoSpaces l = true → noTwoSpaces (' ' :: l) = true := by
      intro l hh hl
      exact noTwo_cons_of ' ' l hl fun d hd hcd => hh d hd hcd.2
    constructor
    · intro b
      by_cases hp : isPySpace a = true
      · cases b with
        | true => simpa [squashRunsAux, hp] using ih1 true
        | false =>
          simp only [squashRunsAux, hp, if_true]
          exact hstep _ ih2 (ih1 true)
      · have ha : a ≠ ' ' := fun he => by subst he; simp [isPySpace] at hp
        simp only [squashRunsAux, hp, Bool.false_eq_true, if_false]
        exact noTwo_cons_of a _ (ih1 false) fun d _ hcd => ha hcd.1
    · intro c hc
      by_cases hp : isPySpace a = true
      · simp only [squashRunsAux, hp, if_true] at hc
        exact ih2 c hc
      · have ha : a ≠ ' ' := fun he => by subst he; simp [isPySpace] at hp
        simp only [squashRunsAux, hp, Bool.false_eq_true, if_false,
          List.head?_cons, Option.some.injEq] at hc
        exact hc ▸ ha

theorem noTwo_pySanitize (t : Str) : noTwoSpaces (pySanitize t) = true :=
  (squashSpaceAux_facts _).1 false

theorem noTwo_append (a b : Str) (ha : noTwoSpaces a = true)
    (hb : noTwoSpaces b = true)
    (hab : ∀ c d, a.getLast? = some c → b.head? = some d → ¬(c = ' ' ∧ d = ' ')) :
    noTwoSpaces (a ++ b) = true := by
  induction a with
  | nil => simpa using hb
  | cons x a' ih =>
    cases a' with
    | nil =>
      exact noTwo_cons_of x b hb fun d hd hcd => hab x d rfl hd hcd
    | cons y a'' =>
      simp only [List.cons_append]
      refine noTwo_cons_of x _ ?_ ?_
      · exact ih (noTwo_tail x _ ha) fun c d hc hd =>
          hab c d (by rw [List.getLast?_cons_cons]; exact hc) hd
      · intro d hd
        simp only [List.cons_append, List.head?_cons, Option.some.injEq] at hd
        subst hd
        unfold noTwoSpaces at ha
        intro ⟨hx, hy⟩
        rw [hx, hy] at ha
        simp at ha

theorem squashSpaceAux_noop (s : Str)
    (hws : ∀ c ∈ s, c = ' ' ∨ isPySpace c = false)
    (hnt : noTwoSpaces s = true) :
    squashRunsAux isPySpace ' ' false s = s ∧
    ((∀ c, s.head? = some c → c ≠ ' ') →
      squashRunsAux isPySpace ' ' true s = s) := by
  induction s with
  | nil => exact ⟨rfl, fun _ => rfl⟩
  | cons a as ih =>
    have hws' : ∀ c ∈ as, c = ' ' ∨ isPySpace c = false :=
      fun c hc => hws c (List.mem_cons_of_mem _ hc)
    obtain ⟨ih1, ih2⟩ := ih hws' (noTwo_tail a as hnt)
    by_cases hp : isPySpace a = true
    · have ha : a = ' ' := by
        rcases hws a (List.mem_cons_self _ _) with h | h
        · exact h
        · rw [h] at hp; cases hp
      subst ha
      constructor
      · have hhead : ∀ c, as.head? = some c → c ≠ ' ' := by
          intro c hc hceq
          subst hceq
          cases as with
          | nil => simp at hc
          | cons d ds =>
            simp only [List.head?_cons, Option.some.injEq] at hc
            subst hc
            unfold noTwoSpaces at hnt
            simp at hnt
        simp only [squashRunsAux, hp, if_true]
        rw [ih2 hhead]
        simp
      · intro hh
        exact absurd rfl (hh ' ' rfl)
    · constructor
      · simp only [squashRunsAux, hp, Bool.false_eq_true, if_false]
        rw [ih1]
      · intro _
        simp only [squashRunsAux, hp, Bool.false_eq_true, if_false]
        rw [ih1]

theorem squashSpace_noop (s : Str)
    (hws : ∀ c ∈ s, c = ' ' ∨ isPySpace c = false)
    (hnt : noTwoSpaces s = true) : squashRuns isPySpace ' ' s = s :=
  (squashSpaceAux_noop s hws hnt).1

/-- A string of legal characters, without double spaces, stripped at both
ends, passes through the sanitizing pipeline unchanged. -/
theorem pySanitize_noop (y : Str)
    (hchars : ∀ c ∈ y, legalChar c)
    (hnt : noTwoSpaces y = true)
    (hh : ∀ c, y.head? = some c → isPySpace c = false)
    (hl : ∀ c, y.getLast? = some c → isPySpace c = false) :
    pySanitize y = y := by
  unfold pySanitize
  rw [pyStrip_noop y hh hl]
  rw [crlfToSpace_noop y fun c hc => (legalChar_not_cr_lf (hchars c hc)).2]
  rw [squashRuns_noop isForbidden '_' y fun c hc => (hchars c hc).1]
  exact squashSpace_noop y (fun c hc => (hchars c hc).2) hnt

theorem endsPdfCI_getLast (l : Str) (h : endsPdfCI l = true) :
    ∃ c, l.getLast? = some c ∧ c.toLower = 'f' := by
  unfold endsPdfCI at h
  rw [List.isSuffixOf_iff_suffix] at h
  obtain ⟨t, ht⟩ := h
  have hlast : (lowerStr l).getLast? = some 'f' := by
    rw [← ht, List.getLast?_append]
    rfl
  unfold lowerStr at hlast
  rw [List.getLast?_map] at hlast
  cases hgl : l.getLast? with
  | none => rw [hgl] at hlast; simp at hlast
  | some c =>
    rw [hgl] at hlast
    simp only [Option.map_some', Option.some.injEq] at hlast
    exact ⟨c, rfl, hlast⟩

theorem noTwo_pdfExt : noTwoSpaces ".pdf".data = true := by decide

theorem pdfExtend_ne_nil (b : Str) : pdfExtend b ≠ [] := by
  unfold pdfExtend
  split
  case isTrue h =>
    obtain ⟨c, hc, -⟩ := endsPdfCI_getLast b h
    intro hb
    rw [hb] at hc
    simp at hc
  case isFalse h => simp

theorem safe_filename_of_ne_nil (y fb : Str) (hy : y ≠ []) :
    safe_filename y fb = pdfExtend (sfBase y) := by
  unfold safe_filename
  rw [if_neg hy]

/-- A string that is already a sanitize-fixpoint, at most 150 characters
long, and `.pdf`-suffixed is a fixpoint of `safe_filename`. -/
theorem safe_filename_fix (y : Str) (hy : y ≠ [])
    (hsan : pySanitize y = y)
    (hh : ∀ c, y.head? = some c → isPySpace c = false)
    (hl : ∀ c, y.getLast? = some c → isPySpace c = false)
    (hlen : y.length ≤ 150) (hends : endsPdfCI y = true) :
    ∀ fb, safe_filename y fb = y := by
  intro fb
  rw [safe_filename_of_ne_nil y fb hy]
  unfold sfBase
  rw [hsan, List.take_of_length_le hlen, pyStrip_noop y hh hl]
  unfold pdfExtend
  rw [if_pos hends]

theorem notEnds_of_getLast (l : Str) (c : Char) (hc : l.getLast? = some c)
    (hcf : c.toLower ≠ 'f') : endsPdfCI l = false := by
  by_cases h : endsPdfCI l = true
  · obtain ⟨c', hc', hcf'⟩ := endsPdfCI_getLast l h
    rw [hc] at hc'
    have : c = c' := by simpa using hc'
    rw [← this] at hcf'
    exact absurd hcf' hcf
  · simpa using h

theorem head?_append_of_ne_nil (b d : Str) (hb : b ≠ []) :
    (b ++ d).head? = b.head? := by
  cases b with
  | nil => exact absurd rfl hb
  | cons x xs => simp

/-- The central stability fact: one more application of `safe_filename`
to `safe_filename` of a well-formed base is the identity. -/
theorem safe_filename_stable_of_base (b fb' fb'' : Str)
    (hchars : ∀ c ∈ b, legalChar c)
    (hnt : noTwoSpaces b = true)
    (hh : ∀ c, b.head? = some c → isPySpace c = false)
    (hl : ∀ c, b.getLast? = some c → isPySpace c = false)
    (hlen : b.length ≤ 150) :
    safe_filename (safe_filename (pdfExtend b) fb') fb'' =
      safe_filename (pdfExtend b) fb' := by
  set y := pdfExtend b with hy_def
  have hy_ne : y ≠ [] := pdfExtend_ne_nil b
  have hy_chars : ∀ c ∈ y, legalChar c := pdfExtend_chars b hchars
  have hy_nt : noTwoSpaces y = true := by
    rw [hy_def]
    unfold pdfExtend
    split
    · exact hnt
    · refine noTwo_append b _ hnt noTwo_pdfExt ?_
      intro c d hc hd hcd
      have hd2 : '.' = d := by simpa using hd
      rw [← hd2] at hcd
      exact absurd hcd.2 (by decide)
  have hy_hh : ∀ c, y.head? = some c → isPySpace c = false := by
    rw [hy_def]
    unfold pdfExtend
    split <;> intro c hc
    · exact hh c hc
    · cases b with
      | nil =>
        simp only [List.nil_append] at hc
        have hc2 : '.' = c := by simpa using hc
        rw [← hc2]; decide
      | cons x xs =>
        rw [head?_append_of_ne_nil _ _ (by simp)] at hc
        exact hh c hc
  have hy_hl : ∀ c, y.getLast? = some c → isPySpace c = false := by
    rw [hy_def]
    unfold pdfExtend
    split <;> intro c hc
    · exact hl c hc
    · rw [List.getLast?_append] at hc
      have hc2 : 'f' = c := by simpa using hc
      rw [← hc2]; decide
  have hy_ends : endsPdfCI y = true := pdfExtend_ends b
  have hsan : pySanitize y = y := pySanitize_noop y hy_chars hy_nt hy_hh hy_hl
  by_cases hcase : y.length ≤ 150
  · rw [safe_filename_fix y hy_ne hsan hy_hh hy_hl hcase hy_ends fb']
    exact safe_filename_fix y hy_ne hsan hy_hh hy_hl hcase hy_ends fb''
  · -- the long form: y = b ++ ".pdf" with a 147-150 character base
    have hends_b : endsPdfCI b = false := by
      by_cases h : endsPdfCI b = true
      · exfalso
        apply hcase
        have : y = b := by rw [hy_def]; unfold pdfExtend; rw [if_pos h]
        rw [this]; exact hlen
      · simpa using h
    have hy_eq : y = b ++ ".pdf".data := by
      rw [hy_def]; unfold pdfExtend; rw [if_neg (by simp [hends_b])]
    have hy_len : y.length = b.length + 4 := by
      rw [hy_eq, List.length_append]; rfl
    have hlen_b : 147 ≤ b.length := by omega
    have hb_ne : b ≠ [] := by
      intro h; rw [h] at hlen_b; simp at hlen_b
    have hB_take : y.take 150 = b ++ ".pdf".data.take (150 - b.length) := by
      rw [hy_eq, List.take_append_eq_append_take, List.take_of_length_le hlen]
    have hkey : ∃ B : Str, y.take 150 = B ∧ B.length = 150 ∧
        endsPdfCI B = false ∧
        (∀ c, B.head? = some c → isPySpace c = false) ∧
        (∀ c, B.getLast? = some c → isPySpace c = false) := by
      have hk : 150 - b.length = 0 ∨ 150 - b.length = 1 ∨
          150 - b.length = 2 ∨ 150 - b.length = 3 := by omega
      rcases hk with h | h | h | h
      · refine ⟨b, ?_, by omega, hends_b, hh, hl⟩
        rw [hB_take, h]
        simp
      · refine ⟨b ++ ['.'], ?_, ?_, ?_, ?_, ?_⟩
        · rw [hB_take, h]; rfl
        · rw [List.length_append]; simp; omega
        · exact notEnds_of_getLast _ '.'
            (by rw [List.getLast?_append]; rfl) (by decide)
        · intro c hc
          rw [head?_append_of_ne_nil _ _ hb_ne] at hc
          exact hh c hc
        · intro c hc
          rw [List.getLast?_append] at hc
          have hc2 : '.' = c := by simpa using hc
          rw [← hc2]; decide
      · refine ⟨b ++ ['.', 'p'], ?_, ?_, ?_, ?_, ?_⟩
        · rw [hB_take, h]; rfl
        · rw [List.length_append]; simp; omega
        · exact notEnds_of_getLast _ 'p'
            (by rw [List.getLast?_append]; rfl) (by decide)
        · intro c hc
          rw [head?_append_of_ne_nil _ _ hb_ne] at hc
          exact hh c hc
        · intro c hc
          rw [List.getLast?_append] at hc
          have hc2 : 'p' = c := by simpa using hc
          rw [← hc2]; decide
      · refine ⟨b ++ ['.', 'p', 'd'], ?_, ?_, ?_, ?_, ?_⟩
        · rw [hB_take, h]; rfl
        · rw [List.length_append]; simp; omega
        · exact notEnds_of_getLast _ 'd'
            (by rw [List.getLast?_append]; rfl) (by decide)
        · intro c hc
          rw [head?_append_of_ne_nil _ _ hb_ne] at hc
          exact hh c hc
        · intro c hc
          rw [List.getLast?_append] at hc
          have hc2 : 'd' = c := by simpa using hc
          rw [← hc2]; decide
    obtain ⟨B, hBtake, hBlen, hBends, hBhead, hBlast⟩ := hkey
    have hB_ne : B ≠ [] := by
      intro h; rw [h] at hBlen; simp at hBlen
    have hB_chars : ∀ c ∈ B, legalChar c := by
      intro c hc
      rw [← hBtake] at hc
      exact hy_chars c (List.mem_of_mem_take hc)
    have hB_nt : noTwoSpaces B = true := by
      rw [← hBtake]; exact noTwo_take 150 y hy_nt
    have hBstrip : pyStrip B = B := pyStrip_noop B hBhead hBlast
    have hz_eq : safe_filename y fb' = B ++ ".pdf".data := by
      rw [safe_filename_of_ne_nil y fb' hy_ne]
      unfold sfBase
      rw [hsan, hBtake, hBstrip]
      unfold pdfExtend
      rw [if_neg (by simp [hBends])]
    rw [hz_eq]
    -- now show the result is itself a fixpoint
    have hz_ne : (B ++ ".pdf".data : Str) ≠ [] := by simp
    have hz_chars : ∀ c ∈ B ++ ".pdf".data, legalChar c := by
      intro c hc
      rcases List.mem_append.mp hc with h | h
      · exact hB_chars c h
      · exact legalChar_pdfExt c h
    have hz_nt : noTwoSpaces (B ++ ".pdf".data) = true := by
      refine noTwo_append B _ hB_nt noTwo_pdfExt ?_
      intro c d hc hd hcd
      have hd2 : '.' = d := by simpa using hd
      rw [← hd2] at hcd
      exact absurd hcd.2 (by decide)
    have hz_hh : ∀ c, (B ++ ".pdf".data : Str).head? = some c →
        isPySpace c = false := by
      intro c hc
      rw [head?_append_of_ne_nil _ _ hB_ne] at hc
      exact hBhead c hc
    have hz_hl : ∀ c, (B ++ ".pdf".data : Str).getLast? = some c →
        isPySpace c = false := by
      intro c hc
      rw [List.getLast?_append] at hc
      have hc2 : 'f' = c := by simpa using hc
      rw [← hc2]; decide
    have hz_san : pySanitize (B ++ ".pdf".data) = B ++ ".pdf".data :=
      pySanitize_noop _ hz_chars hz_nt hz_hh hz_hl
    rw [safe_filename_of_ne_nil _ fb'' hz_ne]
    unfold sfBase
    rw [hz_san, List.take_left' hBlen, hBstrip]
    unfold pdfExtend
    rw [if_neg (by simp [hBends])]

/-- `safe_filename` applied twice reaches a fixpoint of `safe_filename`,
for any choice of fallbacks. -/
theorem safe_filename_stable (s fb fb' fb'' : Str) :
    safe_filename (safe_filename (safe_filename s fb) fb') fb'' =
      safe_filename (safe_filename s fb) fb' := by
  have h : safe_filename s fb = pdfExtend (sfBase (if s = [] then fb else s)) := rfl
  rw [h]
  exact safe_filename_stable_of_base _ fb' fb''
    (sfBase_chars _)
    (noTwo_pyStrip _ (noTwo_take 150 _ (noTwo_pySanitize _)))
    (head?_pyStrip _)
    (getLast?_pyStrip _)
    (sfBase_length _)

theorem snapStep_skip (w : SnapWorld) (e : Candidate) (st : SnapState)
    (hmem : titleKey e.title ∈ st.titles) : snapStep w e st = st := by
  simp [snapStep, hmem]

theorem snapStep_new (w : SnapWorld) (e : Candidate) (st : SnapState)
    (hmem : titleKey e.title ∉ st.titles) :
    snapStep w e st =
      { titles := titleKey e.title :: st.titles,
        newMaster := st.newMaster ++ [buildRowSnap w e],
        newEntries := st.newEntries ++ [buildRowSnap w e] } := by
  simp [snapStep, hmem]

/-- **C8.** The snapshot-merge catalog only grows and prior rows are never
mutated: (1) `safe_filename` applied twice is a fixpoint of
`safe_filename` under any fallbacks — and what `write_csv` stored was
always `safe_filename` of the in-memory value, which for new rows is
itself `safe_filename(title)`, so every previously stored `pdf_filename`
is such a fixpoint; (2) a run appends the same suffix to `newMaster` as
it collects in `newEntries`, leaving the loaded prefix untouched; (3) the
rewrite's per-row transform is the identity on every loaded row whose
`pdf_filename` is a `safe_filename` fixpoint, so the rewritten catalog is
the loaded rows, unchanged and in order, followed by the new entries. -/
theorem claim8_catalog_growth :
    (∀ s fb fb' fb'',
      safe_filename (safe_filename (safe_filename s fb) fb') fb'' =
        safe_filename (safe_filename s fb) fb') ∧
    (∀ (cws : List (Candidate × SnapWorld)) (st : SnapState),
      ∃ new : List Row9,
        (snapRun cws st).newMaster = st.newMaster ++ new ∧
        (snapRun cws st).newEntries = st.newEntries ++ new) ∧
    (∀ m₀ new : List Row9, (∀ r ∈ m₀, writeTransform r = r) →
      (m₀ ++ new).map writeTransform = m₀ ++ new.map writeTransform) := by
  refine ⟨safe_filename_stable, ?_, ?_⟩
  · intro cws
    induction cws with
    | nil => intro st; exact ⟨[], by simp [snapRun], by simp [snapRun]⟩
    | cons p rest ih =>
      intro st
      obtain ⟨e, w⟩ := p
      by_cases hmem : titleKey e.title ∈ st.titles
      · obtain ⟨new, h1, h2⟩ := ih st
        exact ⟨new, by simpa [snapRun, snapStep_skip w e st hmem] using h1,
               by simpa [snapRun, snapStep_skip w e st hmem] using h2⟩
      · obtain ⟨new, h1, h2⟩ := ih
          ⟨titleKey e.title :: st.titles,
           st.newMaster ++ [buildRowSnap w e],
           st.newEntries ++ [buildRowSnap w e]⟩
        refine ⟨buildRowSnap w e :: new, ?_, ?_⟩
        · simp only [snapRun, snapStep_new w e st hmem]
          rw [h1]; simp
        · simp only [snapRun, snapStep_new w e st hmem]
          rw [h2]; simp
  · intro m₀ new h
    rw [List.map_append]
    congr 1
    rw [List.map_congr_left h, List.map_id']

theorem claim8_witness :
    safe_filename (safe_filename (safe_filename "Circular A".data "document".data)
        "document.pdf".data) "document.pdf".data =
      safe_filename (safe_filename "Circular A".data "document".data)
        "document.pdf".data ∧
    ([exRow9] ++ [exRow9b]).map writeTransform =
      [exRow9] ++ [exRow9b].map writeTransform :=
  ⟨claim8_catalog_growth.1 "Circular A".data "document".data
      "document.pdf".data "document.pdf".data,
   claim8_catalog_growth.2.2 [exRow9] [exRow9b] (by decide)⟩

/-! ## Round-trip of `write_csv` and `load_master_csv` (toward claim C2) -/

theorem csvAux_field_plain (s : Str)
    (h : ∀ c ∈ s, c ≠ '|' ∧ c ≠ '"' ∧ c ≠ '\n' ∧ c ≠ '\r') :
    ∀ (fld : Str) (rec : List Str) (rest : Str),
      csvAux .field fld rec (s ++ rest) = csvAux .field (fld ++ s) rec rest := by
  induction s with
  | nil => intro fld rec rest; simp
  | cons c cs ih =>
    intro fld rec rest
    obtain ⟨h1, h2, h3, h4⟩ := h c (List.mem_cons_self _ _)
    rw [List.cons_append]
    simp only [csvAux, h1, h2, h3, h4, if_false]
    rw [ih (fun d hd => h d (List.mem_cons_of_mem _ hd))]
    simp

theorem csvAux_quoted_body (s : Str) (hclean : cleanStr s = true) :
    ∀ (fld : Str) (rec : List Str) (rest : Str),
      csvAux .quoted fld rec (s.flatMap encEsc ++ rest) =
        csvAux .quoted (fld ++ s) rec rest := by
  induction s with
  | nil => intro fld rec rest; simp
  | cons c cs ih =>
    intro fld rec rest
    have hcc : cleanChar c = true := by
      have h0 := hclean
      unfold cleanStr at h0
      rw [List.all_cons, Bool.and_eq_true_iff] at h0
      exact h0.1
    have hcs : cleanStr cs = true := by
      have h0 := hclean
      unfold cleanStr at h0
      rw [List.all_cons, Bool.and_eq_true_iff] at h0
      exact h0.2
    have hnb : c ≠ '\\' := by
      intro he
      rw [he] at hcc
      simp [cleanChar] at hcc
    rw [List.flatMap_cons]
    by_cases hq : c = '"'
    · subst hq
      show csvAux .quoted fld rec ('"' :: '"' :: (cs.flatMap encEsc ++ rest)) = _
      simp only [csvAux, if_pos rfl]
      rw [ih hcs]
      simp
    · have henc : encEsc c = [c] := by
        unfold encEsc
        rw [if_neg hq, if_neg hnb]
      rw [henc]
      show csvAux .quoted fld rec (c :: (cs.flatMap encEsc ++ rest)) = _
      simp only [csvAux, if_neg hq]
      rw [ih hcs]
      simp

theorem flatMap_encEsc_plain (f : Str) (h : ∀ c ∈ f, encEsc c = [c]) :
    f.flatMap encEsc = f := by
  induction f with
  | nil => rfl
  | cons c cs ih =>
    rw [List.flatMap_cons, h c (List.mem_cons_self _ _),
      ih fun d hd => h d (List.mem_cons_of_mem _ hd)]
    rfl

theorem encodeField_unquoted (f : Str) (hclean : cleanStr f = true)
    (hq : f.any quoteNeeded = false) : encodeField f = f := by
  unfold encodeField
  rw [hq]
  simp only [Bool.false_eq_true, if_false]
  refine flatMap_encEsc_plain f ?_
  intro c hc
  have hcq : quoteNeeded c = false := by
    rw [List.any_eq_false] at hq
    simpa using hq c hc
  have hcc : cleanChar c = true := by
    unfold cleanStr at hclean
    rw [List.all_eq_true] at hclean
    simpa using hclean c hc
  unfold encEsc
  rw [if_neg, if_neg]
  · intro he; rw [he] at hcc; simp [cleanChar] at hcc
  · intro he
    rw [he] at hcq
    simp [quoteNeeded] at hcq

theorem csvAux_enc_field_delim (f : Str) (hclean : cleanStr f = true) :
    ∀ (rec : List Str) (rest : Str),
      csvAux .start [] rec (encodeField f ++ '|' :: rest) =
        csvAux .start [] (rec ++ [f]) rest := by
  intro rec rest
  by_cases hq : f.any quoteNeeded = true
  · have henc : encodeField f = '"' :: f.flatMap encEsc ++ ['"'] := by
      unfold encodeField
      rw [hq]
      simp
    rw [henc]
    show csvAux .start [] rec ('"' :: (f.flatMap encEsc ++ ['"'] ++ '|' :: rest)) = _
    simp only [csvAux, if_pos rfl]
    rw [List.append_assoc]
    rw [csvAux_quoted_body f hclean]
    show csvAux .quoted f rec ('"' :: '|' :: rest) = _
    simp [csvAux]
  · have hq2 : f.any quoteNeeded = false := by simpa using hq
    rw [encodeField_unquoted f hclean hq2]
    cases f with
    | nil =>
      show csvAux .start [] rec ('|' :: rest) = _
      simp [csvAux]
    | cons c cs =>
      have hplain : ∀ d ∈ c :: cs, d ≠ '|' ∧ d ≠ '"' ∧ d ≠ '\n' ∧ d ≠ '\r' := by
        intro d hd
        have hdq : quoteNeeded d = false := by
          rw [List.any_eq_false] at hq2
          simpa using hq2 d hd
        unfold quoteNeeded at hdq
        refine ⟨?_, ?_, ?_, ?_⟩ <;> intro he <;> rw [he] at hdq <;> simp at hdq
      obtain ⟨hc1, hc2, hc3, hc4⟩ := hplain c (List.mem_cons_self _ _)
      rw [List.cons_append]
      show csvAux .start [] rec (c :: (cs ++ '|' :: rest)) = _
      simp only [csvAux, hc1, hc2, hc3, hc4, if_false]
      rw [csvAux_field_plain cs
        (fun d hd => hplain d (List.mem_cons_of_mem _ hd))]
      show csvAux .field (c :: cs) rec ('|' :: rest) = _
      simp [csvAux]

theorem csvAux_enc_field_nl (f : Str) (hclean : cleanStr f = true) :
    ∀ (rec : List Str) (rest : Str), rec ≠ [] ∨ f ≠ [] →
      csvAux .start [] rec (encodeField f ++ '\n' :: rest) =
        (rec ++ [f]) :: csvAux .start [] [] rest := by
  intro rec rest hne
  by_cases hq : f.any quoteNeeded = true
  · have henc : encodeField f = '"' :: f.flatMap encEsc ++ ['"'] := by
      unfold encodeField
      rw [hq]
      simp
    rw [henc]
    show csvAux .start [] rec ('"' :: (f.flatMap encEsc ++ ['"'] ++ '\n' :: rest)) = _
    simp only [csvAux, if_pos rfl]
    rw [List.append_assoc]
    rw [csvAux_quoted_body f hclean]
    show csvAux .quoted f rec ('"' :: '\n' :: rest) = _
    simp [csvAux]
  · have hq2 : f.any quoteNeeded = false := by simpa using hq
    rw [encodeField_unquoted f hclean hq2]
    cases f with
    | nil =>
      have hrec : rec ≠ [] := by
        rcases hne with h | h
        · exact h
        · exact absurd rfl h
      show csvAux .start [] rec ('\n' :: rest) = _
      simp [csvAux, hrec]
    | cons c cs =>
      have hplain : ∀ d ∈ c :: cs, d ≠ '|' ∧ d ≠ '"' ∧ d ≠ '\n' ∧ d ≠ '\r' := by
        intro d hd
        have hdq : quoteNeeded d = false := by
          rw [List.any_eq_false] at hq2
          simpa using hq2 d hd
        unfold quoteNeeded at hdq
        refine ⟨?_, ?_, ?_, ?_⟩ <;> intro he <;> rw [he] at hdq <;> simp at hdq
      obtain ⟨hc1, hc2, hc3, hc4⟩ := hplain c (List.mem_cons_self _ _)
      rw [List.cons_append]
      show csvAux .start [] rec (c :: (cs ++ '\n' :: rest)) = _
      simp only [csvAux, hc1, hc2, hc3, hc4, if_false]
      rw [csvAux_field_plain cs
        (fun d hd => hplain d (List.mem_cons_of_mem _ hd))]
      show csvAux .field (c :: cs) rec ('\n' :: rest) = _
      simp [csvAux]

theorem csvAux_enc_fields (fs : List Str) :
    ∀ (rec : List Str) (rest : Str),
      (∀ f ∈ fs, cleanStr f = true) → fs ≠ [] → rec ≠ [] →
      csvAux .start [] rec (encodeRecord fs ++ '\n' :: rest) =
        (rec ++ fs) :: csvAux .start [] [] rest := by
  induction fs with
  | nil => intro rec rest _ hne _; exact absurd rfl hne
  | cons f fs' ih =>
    intro rec rest h _ hrec
    cases fs' with
    | nil =>
      show csvAux .start [] rec (encodeField f ++ '\n' :: rest) = _
      rw [csvAux_enc_field_nl f (h f (List.mem_cons_self _ _)) rec rest
        (Or.inl hrec)]
    | cons g fs'' =>
      show csvAux .start [] rec
        ((encodeField f ++ '|' :: encodeRecord (g :: fs'')) ++ '\n' :: rest) = _
      rw [List.append_assoc, List.cons_append]
      rw [csvAux_enc_field_delim f (h f (List.mem_cons_self _ _))]
      rw [ih (rec ++ [f]) rest
        (fun x hx => h x (List.mem_cons_of_mem _ hx)) (by simp) (by simp)]
      simp

theorem csvAux_enc_record (fs : List Str)
    (h : ∀ f ∈ fs, cleanStr f = true) (hlen : 2 ≤ fs.length) :
    ∀ rest, csvAux .start [] [] (encodeRecord fs ++ '\n' :: rest) =
      fs :: csvAux .start [] [] rest := by
  intro rest
  match fs, hlen with
  | f :: g :: fs'', _ =>
    show csvAux .start [] []
      ((encodeField f ++ '|' :: encodeRecord (g :: fs'')) ++ '\n' :: rest) = _
    rw [List.append_assoc, List.cons_append]
    rw [csvAux_enc_field_delim f (h f (List.mem_cons_self _ _))]
    rw [List.nil_append]
    rw [csvAux_enc_fields (g :: fs'') [f] rest
      (fun x hx => h x (List.mem_cons_of_mem _ hx)) (by simp) (by simp)]
    simp

theorem csvSplit_encodes (records : List (List Str))
    (h : ∀ rec ∈ records, (∀ f ∈ rec, cleanStr f = true) ∧ 2 ≤ rec.length) :
    csvSplit (records.flatMap (fun fs => encodeRecord fs ++ ['\n'])) = records := by
  induction records with
  | nil => rfl
  | cons r rs ih =>
    unfold csvSplit
    rw [List.flatMap_cons]
    have hassoc : (encodeRecord r ++ ['\n']) ++
        rs.flatMap (fun fs => encodeRecord fs ++ ['\n']) =
        encodeRecord r ++ '\n' :: rs.flatMap (fun fs => encodeRecord fs ++ ['\n']) := by
      simp
    rw [hassoc]
    rw [csvAux_enc_record r (h r (List.mem_cons_self _ _)).1
      (h r (List.mem_cons_self _ _)).2]
    exact congrArg _ (ih fun rec hrec => h rec (List.mem_cons_of_mem _ hrec))

theorem mem_encEsc (x c : Char) (hx : x ∈ encEsc c) :
    x = '"' ∨ x = '\\' ∨ x = c := by
  unfold encEsc at hx
  split at hx
  · rcases List.mem_cons.mp hx with h | h
    · exact Or.inl h
    · exact Or.inl (by simpa using h)
  · split at hx
    · rcases List.mem_cons.mp hx with h | h
      · exact Or.inr (Or.inl h)
      · exact Or.inr (Or.inl (by simpa using h))
    · exact Or.inr (Or.inr (by simpa using hx))

theorem encodeField_no_crlf (f : Str) (hclean : cleanStr f = true) :
    ∀ x ∈ encodeField f, x ≠ '\r' ∧ x ≠ '\n' := by
  intro x hx
  have hbody : ∀ y ∈ f.flatMap encEsc, y ≠ '\r' ∧ y ≠ '\n' := by
    intro y hy
    rw [List.mem_flatMap] at hy
    obtain ⟨c, hc, hyc⟩ := hy
    have hcc : cleanChar c = true := by
      unfold cleanStr at hclean
      rw [List.all_eq_true] at hclean
      simpa using hclean c hc
    rcases mem_encEsc y c hyc with h | h | h <;> subst h
    · exact ⟨by decide, by decide⟩
    · exact ⟨by decide, by decide⟩
    · constructor <;> intro he <;> rw [he] at hcc <;> simp [cleanChar] at hcc
  unfold encodeField at hx
  split at hx
  · rcases List.mem_cons.mp hx with h | h
    · subst h; exact ⟨by decide, by decide⟩
    · rcases List.mem_append.mp h with h2 | h2
      · exact hbody x h2
      · have hq : x = '"' := by simpa using h2
        subst hq; exact ⟨by decide, by decide⟩
  · exact hbody x hx

theorem encodeRecord_no_crlf (fs : List Str)
    (h : ∀ f ∈ fs, cleanStr f = true) :
    ∀ x ∈ encodeRecord fs, x ≠ '\r' ∧ x ≠ '\n' := by
  induction fs with
  | nil => intro x hx; simp [encodeRecord] at hx
  | cons f fs' ih =>
    intro x hx
    cases fs' with
    | nil => exact encodeField_no_crlf f (h f (List.mem_cons_self _ _)) x hx
    | cons g fs'' =>
      have hx2 : x ∈ encodeField f ++ '|' :: encodeRecord (g :: fs'') := hx
      rcases List.mem_append.mp hx2 with h1 | h1
      · exact encodeField_no_crlf f (h f (List.mem_cons_self _ _)) x h1
      · rcases List.mem_cons.mp h1 with h2 | h2
        · subst h2; exact ⟨by decide, by decide⟩
        · exact ih (fun y hy => h y (List.mem_cons_of_mem _ hy)) x h2

theorem lfNormalize_cons_of_ne (c : Char) (hc : c ≠ '\r') (xs : Str) :
    lfNormalize (c :: xs) = c :: lfNormalize xs := by
  cases xs with
  | nil => rfl
  | cons d ds =>
    simp only [lfNormalize]
    rw [if_neg]
    intro hcon
    rw [Bool.and_eq_true] at hcon
    exact hc (of_decide_eq_true hcon.1)

theorem lfNormalize_crlf (rest : Str) :
    lfNormalize ('\r' :: '\n' :: rest) = '\n' :: lfNormalize rest := by
  simp only [lfNormalize]
  rw [if_pos (by decide)]

theorem lfNormalize_line (l : Str) (h : ∀ x ∈ l, x ≠ '\r') :
    ∀ rest, lfNormalize (l ++ '\r' :: '\n' :: rest) = l ++ '\n' :: lfNormalize rest := by
  induction l with
  | nil => intro rest; exact lfNormalize_crlf rest
  | cons c l' ih =>
    intro rest
    rw [List.cons_append,
      lfNormalize_cons_of_ne c (h c (List.mem_cons_self _ _)),
      ih fun x hx => h x (List.mem_cons_of_mem _ hx)]
    rfl

theorem lfNormalize_encodes (records : List (List Str))
    (h : ∀ rec ∈ records, ∀ f ∈ rec, cleanStr f = true) :
    lfNormalize (records.flatMap (fun fs => encodeRecord fs ++ ['\r', '\n'])) =
      records.flatMap (fun fs => encodeRecord fs ++ ['\n']) := by
  induction records with
  | nil => rfl
  | cons r rs ih =>
    rw [List.flatMap_cons, List.flatMap_cons]
    have hassoc : (encodeRecord r ++ ['\r', '\n']) ++
        rs.flatMap (fun fs => encodeRecord fs ++ ['\r', '\n']) =
        encodeRecord r ++ '\r' :: '\n' ::
          rs.flatMap (fun fs => encodeRecord fs ++ ['\r', '\n']) := by
      simp
    rw [hassoc]
    rw [lfNormalize_line (encodeRecord r)
      (fun x hx => (encodeRecord_no_crlf r (h r (List.mem_cons_self _ _)) x hx).1)]
    rw [ih fun rec hrec => h rec (List.mem_cons_of_mem _ hrec)]
    simp
/-! ## Cleanliness of the written fields and the full round trip -/

theorem cleanChar_of_legal {c : Char} (h : legalChar c) : cleanChar c = true := by
  obtain ⟨h1, h2, h3⟩ := legalChar_not_cr_lf h
  have hb : c ≠ '\\' := by
    intro he
    rw [he] at h1
    simp [isForbidden] at h1
  simp [cleanChar, hb, h2, h3]

theorem cleanStr_safe_filename (s fb : Str) :
    cleanStr (safe_filename s fb) = true := by
  unfold cleanStr
  rw [List.all_eq_true]
  intro c hc
  exact cleanChar_of_legal (safe_filename_chars s fb c hc)

theorem cleanStr_append (a b : Str) (ha : cleanStr a = true)
    (hb : cleanStr b = true) : cleanStr (a ++ b) = true := by
  unfold cleanStr at *
  rw [List.all_append, ha, hb]
  rfl

theorem writeRowValues_eq (r : Row9) :
    writeRowValues r = [ r.id, r.date, r.title, r.link, r.pdf_link,
      safe_filename r.pdf_filename "document.pdf".data,
      r.pdf_downloaded, r.created_at, r.source_commit ] := by
  simp only [writeRowValues, rowValues, writeTransform]

theorem recToRow9_explicit (a b c d e f g h i : Str) :
    recToRow9 masterHeader [a, b, c, d, e, f, g, h, i] =
      ⟨a, b, c, d, e, f, g, h, i⟩ := rfl

/-- Reading back a written row under the master header recovers exactly the
transformed row (`DictReader` maps each header name to the field written at
its position). -/
theorem recToRow9_writeRow (r : Row9) :
    recToRow9 masterHeader (writeRowValues r) = writeTransform r := by
  rw [writeRowValues_eq, recToRow9_explicit]
  simp only [writeTransform]

theorem writeRowValues_length (r : Row9) : (writeRowValues r).length = 9 := rfl

theorem masterHeader_clean : ∀ f ∈ masterHeader, cleanStr f = true := by decide

theorem load_master_csv_eq (content : Str) (hdr : List Str)
    (rest : List (List Str))
    (h : (csvSplit content).filter (fun rec => rec ≠ []) = hdr :: rest) :
    load_master_csv content = rest.map (recToRow9 hdr) := by
  unfold load_master_csv
  rw [h]

/-- The full file round trip: when every written field is free of `\`, CR
and LF, `load_master_csv` recovers from `write_csv`'s file exactly the
written rows (after `write_csv`'s own `safe_filename` re-application). -/
theorem load_write_roundtrip (rows : List Row9)
    (h : ∀ r ∈ rows, ∀ f ∈ writeRowValues r, cleanStr f = true) :
    load_master_csv (write_csv_content rows) = rows.map writeTransform := by
  have hrecs : ∀ rec ∈ masterHeader :: rows.map writeRowValues,
      ∀ f ∈ rec, cleanStr f = true := by
    intro rec hrec
    rcases List.mem_cons.mp hrec with h1 | h1
    · subst h1; exact masterHeader_clean
    · rcases List.mem_map.mp h1 with ⟨r, hr, hrw⟩
      subst hrw; exact h r hr
  have hlen : ∀ rec ∈ masterHeader :: rows.map writeRowValues,
      2 ≤ rec.length := by
    intro rec hrec
    rcases List.mem_cons.mp hrec with h1 | h1
    · subst h1; decide
    · rcases List.mem_map.mp h1 with ⟨r, hr, hrw⟩
      subst hrw
      rw [writeRowValues_length]
      omega
  have hcontent : write_csv_content rows =
      (masterHeader :: rows.map writeRowValues).flatMap
        (fun fs => encodeRecord fs ++ ['\n']) := by
    unfold write_csv_content
    exact lfNormalize_encodes _ hrecs
  have hsplit : csvSplit (write_csv_content rows) =
      masterHeader :: rows.map writeRowValues := by
    rw [hcontent]
    exact csvSplit_encodes _ fun rec hrec => ⟨hrecs rec hrec, hlen rec hrec⟩
  have hfilter : (csvSplit (write_csv_content rows)).filter
      (fun rec => rec ≠ []) = masterHeader :: rows.map writeRowValues := by
    rw [hsplit, List.filter_eq_self]
    intro rec hrec
    have h2 := hlen rec hrec
    cases rec with
    | nil => exact absurd h2 (by decide)
    | cons a as => simp
  rw [load_master_csv_eq _ masterHeader (rows.map writeRowValues) hfilter]
  rw [List.map_map]
  exact List.map_congr_left fun r hr => recToRow9_writeRow r

/-! ## Shape of the snapshot-merge run, toward idempotence -/

theorem snapRun_cons (e : Candidate) (w : SnapWorld)
    (rest : List (Candidate × SnapWorld)) (st : SnapState) :
    snapRun ((e, w) :: rest) st = snapRun rest (snapStep w e st) := rfl

theorem snapStep_titles_mono (w : SnapWorld) (e : Candidate) (st : SnapState)
    (t : Str) (ht : t ∈ st.titles) : t ∈ (snapStep w e st).titles := by
  by_cases hmem : titleKey e.title ∈ st.titles
  · rw [snapStep_skip w e st hmem]; exact ht
  · rw [snapStep_new w e st hmem]; exact List.mem_cons_of_mem _ ht

theorem snapStep_key_mem (w : SnapWorld) (e : Candidate) (st : SnapState) :
    titleKey e.title ∈ (snapStep w e st).titles := by
  by_cases hmem : titleKey e.title ∈ st.titles
  · rw [snapStep_skip w e st hmem]; exact hmem
  · rw [snapStep_new w e st hmem]; exact List.mem_cons_self _ _

theorem snapRun_titles_mono (cws : List (Candidate × SnapWorld)) :
    ∀ (st : SnapState) (t : Str), t ∈ st.titles → t ∈ (snapRun cws st).titles := by
  induction cws with
  | nil => intro st t ht; exact ht
  | cons q rest ih =>
    intro st t ht
    obtain ⟨e, w⟩ := q
    rw [snapRun_cons]
    exact ih (snapStep w e st) t (snapStep_titles_mono w e st t ht)

/-- Every candidate's normalized title is in the loop's final title set,
whether it was skipped or appended. -/
theorem snapRun_key_mem (cws : List (Candidate × SnapWorld)) :
    ∀ (st : SnapState), ∀ p ∈ cws, titleKey p.1.title ∈ (snapRun cws st).titles := by
  induction cws with
  | nil => intro st p hp; simp at hp
  | cons q rest ih =>
    intro st p hp
    obtain ⟨e, w⟩ := q
    rw [snapRun_cons]
    rcases List.mem_cons.mp hp with h1 | h1
    · subst h1
      exact snapRun_titles_mono rest (snapStep w e st) _ (snapStep_key_mem w e st)
    · exact ih (snapStep w e st) p h1

theorem snapStep_master_mono (w : SnapWorld) (e : Candidate) (st : SnapState)
    (r : Row9) (hr : r ∈ st.newMaster) : r ∈ (snapStep w e st).newMaster := by
  by_cases hmem : titleKey e.title ∈ st.titles
  · rw [snapStep_skip w e st hmem]; exact hr
  · rw [snapStep_new w e st hmem]
    exact List.mem_append_left _ hr

theorem snapRun_master_mono (cws : List (Candidate × SnapWorld)) :
    ∀ (st : SnapState) (r : Row9), r ∈ st.newMaster →
      r ∈ (snapRun cws st).newMaster := by
  induction cws with
  | nil => intro st r hr; exact hr
  | cons q rest ih =>
    intro st r hr
    obtain ⟨e, w⟩ := q
    rw [snapRun_cons]
    exact ih (snapStep w e st) r (snapStep_master_mono w e st r hr)

/-- Every row the loop adds is `buildRowSnap` of one of its candidates. -/
theorem snapRun_provenance (cws : List (Candidate × SnapWorld)) :
    ∀ (st : SnapState), ∀ r ∈ (snapRun cws st).newMaster,
      r ∈ st.newMaster ∨ ∃ p ∈ cws, r = buildRowSnap p.2 p.1 := by
  induction cws with
  | nil => intro st r hr; exact Or.inl hr
  | cons q rest ih =>
    intro st r hr
    obtain ⟨e, w⟩ := q
    rw [snapRun_cons] at hr
    rcases ih (snapStep w e st) r hr with h | ⟨p, hp, hpe⟩
    · by_cases hmem : titleKey e.title ∈ st.titles
      · rw [snapStep_skip w e st hmem] at h
        exact Or.inl h
      · rw [snapStep_new w e st hmem] at h
        have h2 : r ∈ st.newMaster ++ [buildRowSnap w e] := h
        rcases List.mem_append.mp h2 with h3 | h3
        · exact Or.inl h3
        · exact Or.inr ⟨(e, w), List.mem_cons_self _ _, by simpa using h3⟩
    · exact Or.inr ⟨p, List.mem_cons_of_mem _ hp, hpe⟩

theorem buildRowSnap_title (w : SnapWorld) (e : Candidate) :
    (buildRowSnap w e).title = e.title := rfl

theorem writeTransform_title (r : Row9) : (writeTransform r).title = r.title := by
  simp only [writeTransform]

/-- Every title in the loop's final set is carried by some appended row
(when the set started empty alongside the master). -/
theorem snapRun_titles_of_rows (cws : List (Candidate × SnapWorld)) :
    ∀ (st : SnapState), ∀ t ∈ (snapRun cws st).titles,
      t ∈ st.titles ∨ ∃ r ∈ (snapRun cws st).newMaster, t = titleKey r.title := by
  induction cws with
  | nil => intro st t ht; exact Or.inl ht
  | cons q rest ih =>
    intro st t ht
    obtain ⟨e, w⟩ := q
    rw [snapRun_cons] at ht ⊢
    rcases ih (snapStep w e st) t ht with h | h
    · by_cases hmem : titleKey e.title ∈ st.titles
      · rw [snapStep_skip w e st hmem] at h
        exact Or.inl h
      · rw [snapStep_new w e st hmem] at h
        have h2 : t ∈ titleKey e.title :: st.titles := h
        rcases List.mem_cons.mp h2 with h3 | h3
        · refine Or.inr ⟨buildRowSnap w e, ?_, by rw [h3, buildRowSnap_title]⟩
          apply snapRun_master_mono rest (snapStep w e st)
          rw [snapStep_new w e st hmem]
          exact List.mem_append_right _ (List.mem_cons_self _ _)
        · exact Or.inl h3
    · exact Or.inr h

/-- A run all of whose candidate keys are already known changes nothing. -/
theorem snapRun_skip_all (cws : List (Candidate × SnapWorld)) :
    ∀ (st : SnapState), (∀ p ∈ cws, titleKey p.1.title ∈ st.titles) →
      snapRun cws st = st := by
  induction cws with
  | nil => intro st _; rfl
  | cons q rest ih =>
    intro st h
    obtain ⟨e, w⟩ := q
    rw [snapRun_cons]
    rw [snapStep_skip w e st (h (e, w) (List.mem_cons_self _ _))]
    exact ih st fun p hp => h p (List.mem_cons_of_mem _ hp)

theorem mem_existingTitles (rows : List Row9) (r : Row9) (hr : r ∈ rows)
    (hne : titleKey r.title ≠ []) : titleKey r.title ∈ existingTitles rows := by
  unfold existingTitles
  rw [List.mem_filterMap]
  exact ⟨r, hr, by simp [hne]⟩

theorem buildRowSnap_id (w : SnapWorld) (e : Candidate) :
    (buildRowSnap w e).id = make_id e.date e.title e.link := rfl

theorem buildRowSnap_date (w : SnapWorld) (e : Candidate) :
    (buildRowSnap w e).date = e.date := rfl

theorem buildRowSnap_link (w : SnapWorld) (e : Candidate) :
    (buildRowSnap w e).link = e.link := rfl

theorem buildRowSnap_created_at (w : SnapWorld) (e : Candidate) :
    (buildRowSnap w e).created_at = w.createdAt := rfl

theorem buildRowSnap_source_commit (w : SnapWorld) (e : Candidate) :
    (buildRowSnap w e).source_commit = [] := rfl

/-- Cleanliness of everything a snapshot row writes, from cleanliness of
the candidate's scraped parts. -/
theorem buildRowSnap_writeRow_clean (w : SnapWorld) (e : Candidate)
    (hd : cleanStr e.date = true) (ht : cleanStr e.title = true)
    (hl : cleanStr e.link = true) (hc : cleanStr w.createdAt = true)
    (hp : cleanStr (buildRowSnap w e).pdf_link = true) :
    ∀ f ∈ writeRowValues (buildRowSnap w e), cleanStr f = true := by
  intro f hf
  rw [writeRowValues_eq] at hf
  have hm1 : cleanStr ("sha1:".data ++ e.date) = true :=
    cleanStr_append _ _ (by decide) hd
  have hm2 : cleanStr ("sha1:".data ++ e.date ++ "|".data) = true :=
    cleanStr_append _ _ hm1 (by decide)
  have hm3 : cleanStr ("sha1:".data ++ e.date ++ "|".data ++ e.title) = true :=
    cleanStr_append _ _ hm2 ht
  have hm4 : cleanStr ("sha1:".data ++ e.date ++ "|".data ++ e.title ++ "|".data) = true :=
    cleanStr_append _ _ hm3 (by decide)
  have hid : cleanStr (make_id e.date e.title e.link) = true := by
    unfold make_id
    exact cleanStr_append _ _ hm4 hl
  simp only [List.mem_cons, List.not_mem_nil, or_false] at hf
  rcases hf with h | h | h | h | h | h | h | h | h
  · rw [h, buildRowSnap_id]; exact hid
  · rw [h, buildRowSnap_date]; exact hd
  · rw [h, buildRowSnap_title]; exact ht
  · rw [h, buildRowSnap_link]; exact hl
  · rw [h]; exact hp
  · rw [h]; exact cleanStr_safe_filename _ _
  · rw [h, buildRowSnap_noDownload]; decide
  · rw [h, buildRowSnap_created_at]; exact hc
  · rw [h, buildRowSnap_source_commit]; decide
/-- **C2** (corrected).  Idempotence of the snapshot-merge pipeline holds
for runs whose written fields (candidate date, title, link, the resolved
PDF link and the timestamp) contain no backslash and no CR/LF and whose
normalized titles are nonempty: the catalog the second run loads back is
exactly the first run's rows (after `write_csv`'s `safe_filename`
re-application), every candidate's normalized title is found in it, the
second run appends nothing, and the catalog's rows, normalized-title list
and row count are unchanged.  As literally stated the claim fails — see
the counterexample: `write_csv` (escapechar `\`) doubles a backslash in a
title and `load_master_csv` (no escapechar) reads it back doubled. -/
theorem claim2_idempotent_roundtrip (cws : List (Candidate × SnapWorld))
    (hclean : ∀ p ∈ cws, cleanStr p.1.date = true ∧ cleanStr p.1.title = true ∧
      cleanStr p.1.link = true ∧ cleanStr p.2.createdAt = true ∧
      cleanStr (buildRowSnap p.2 p.1).pdf_link = true)
    (hkey : ∀ p ∈ cws, titleKey p.1.title ≠ []) :
    snapReload cws = (snapFirstRun cws).newMaster.map writeTransform ∧
    (∀ p ∈ cws, titleKey p.1.title ∈ existingTitles (snapReload cws)) ∧
    (snapSecondRun cws).newEntries = [] ∧
    (snapSecondRun cws).newMaster = snapReload cws ∧
    (snapSecondRun cws).newMaster.map (fun r => titleKey r.title) =
      (snapReload cws).map (fun r => titleKey r.title) ∧
    (snapSecondRun cws).newMaster.length = (snapReload cws).length := by
  have hprov : ∀ r ∈ (snapFirstRun cws).newMaster,
      ∃ p ∈ cws, r = buildRowSnap p.2 p.1 := by
    intro r hr
    rcases snapRun_provenance cws ⟨[], [], []⟩ r hr with h | h
    · simp at h
    · exact h
  have hrowsclean : ∀ r ∈ (snapFirstRun cws).newMaster,
      ∀ f ∈ writeRowValues r, cleanStr f = true := by
    intro r hr
    obtain ⟨p, hp, hpe⟩ := hprov r hr
    obtain ⟨h1, h2, h3, h4, h5⟩ := hclean p hp
    rw [hpe]
    exact buildRowSnap_writeRow_clean p.2 p.1 h1 h2 h3 h4 h5
  have hreload : snapReload cws = (snapFirstRun cws).newMaster.map writeTransform := by
    unfold snapReload
    exact load_write_roundtrip _ hrowsclean
  have hmem : ∀ p ∈ cws, titleKey p.1.title ∈ existingTitles (snapReload cws) := by
    intro p hp
    have hk : titleKey p.1.title ∈ (snapFirstRun cws).titles :=
      snapRun_key_mem cws ⟨[], [], []⟩ p hp
    rcases snapRun_titles_of_rows cws ⟨[], [], []⟩ _ hk with h | ⟨r, hr, hre⟩
    · simp at h
    · obtain ⟨q, hq, hqe⟩ := hprov r hr
      have hne : titleKey r.title ≠ [] := by
        rw [hqe, buildRowSnap_title]
        exact hkey q hq
      have hmm : writeTransform r ∈ snapReload cws := by
        rw [hreload]
        exact List.mem_map_of_mem _ hr
      have hfin := mem_existingTitles (snapReload cws) (writeTransform r) hmm
        (by rw [writeTransform_title]; exact hne)
      rw [writeTransform_title] at hfin
      rw [hre]
      exact hfin
  have hskip : snapSecondRun cws =
      ⟨existingTitles (snapReload cws), snapReload cws, []⟩ := by
    unfold snapSecondRun
    exact snapRun_skip_all cws _ hmem
  refine ⟨hreload, hmem, ?_, ?_, ?_, ?_⟩ <;> rw [hskip]

/-- Witness for the corrected C2 idempotence: a concrete clean run in which
the second pass appends nothing. -/
theorem claim2_witness :
    (snapSecondRun [(exCand, exSnapW)]).newEntries = [] ∧
    (snapSecondRun [(exCand, exSnapW)]).newMaster = snapReload [(exCand, exSnapW)] :=
  ⟨(claim2_idempotent_roundtrip [(exCand, exSnapW)] (by decide) (by decide)).2.2.1,
   (claim2_idempotent_roundtrip [(exCand, exSnapW)] (by decide) (by decide)).2.2.2.1⟩

/-- Counterexample to C2 as stated: a title with one backslash (`a\b`).
The first run stores it; `write_csv` doubles the backslash and
`load_master_csv` reads it back doubled (`a\\b`), so the second run does
not find the candidate's normalized title in the loaded set, re-adds the
candidate, and the catalog grows from one row to two. -/
theorem claim2_counterexample :
    (snapFirstRun [(slashCand, exSnapW)]).newMaster.length = 1 ∧
    (snapReload [(slashCand, exSnapW)]).map (fun r => r.title) = ["a\\\\b".data] ∧
    titleKey slashCand.title ∉ existingTitles (snapReload [(slashCand, exSnapW)]) ∧
    (snapSecondRun [(slashCand, exSnapW)]).newEntries.length = 1 ∧
    (snapSecondRun [(slashCand, exSnapW)]).newMaster.length = 2 := by decide
